import Mathlib

/-!
# Verification of the gdrivevault folder-sync engine

Shallow embedding of the core algorithms of the `gdrivevault` repository:
the JS utility functions (`chunkArray`, `escapeSingleQuotes`,
`extractFileIdFromLink`), the folder-closure traversal
(`buildFolderTree` in the `GoogleDriveService`/`FileFetcher` variants),
the batched file query (`searchFilesInFolders`), the SQLite-backed
reconciliation store (`FolderDatabase` in its `database/database.ts`,
`database.ts` and `local-db`/`part_007` variants) and the download cache
(`DriveFileManager.downloadFile`).

JS arrays become Lean lists, JS `Set` becomes an insertion-ordered
duplicate-free list, SQLite tables become lists of row structures kept in
storage order, and the implicit database/transaction failure modes are
injected through explicit boolean/index oracles.  Numbers that the source
manipulates as JS `number` indices appear as `Int` where negative values
are reachable (`chunkArray`) and as `Nat` otherwise.
-/

set_option maxHeartbeats 1000000

namespace Gdv

/-! ## JS primitives -/

/-- Insertion of an element into a JS `Set`, represented as an
insertion-ordered list without duplicates. -/
def jsSetInsert (acc : List String) (x : String) : List String :=
  if acc.contains x then acc else acc ++ [x]

/-- `new Set(l)` for a list of strings: deduplicate keeping the first
occurrence, preserving insertion order. -/
def jsSetList (l : List String) : List String :=
  l.foldl jsSetInsert []

theorem mem_jsSetInsert (acc : List String) (x y : String) :
    y ∈ jsSetInsert acc x ↔ y ∈ acc ∨ y = x := by
  simp only [jsSetInsert]
  split <;> rename_i h
  · simp only [List.elem_iff] at h
    constructor
    · intro hy; exact Or.inl hy
    · rintro (hy | rfl)
      · exact hy
      · exact h
  · simp [List.mem_append]

theorem mem_jsSetList_aux (l : List String) (acc : List String) (y : String) :
    y ∈ l.foldl jsSetInsert acc ↔ y ∈ acc ∨ y ∈ l := by
  induction l generalizing acc with
  | nil => simp
  | cons a l ih =>
    simp only [List.foldl_cons, ih, mem_jsSetInsert, List.mem_cons]
    tauto

theorem mem_jsSetList (l : List String) (y : String) :
    y ∈ jsSetList l ↔ y ∈ l := by
  simp [jsSetList, mem_jsSetList_aux]

theorem nodup_jsSetList_aux (l : List String) (acc : List String)
    (h : acc.Nodup) : (l.foldl jsSetInsert acc).Nodup := by
  induction l generalizing acc with
  | nil => exact h
  | cons a l ih =>
    refine ih _ ?_
    simp only [jsSetInsert]
    split <;> rename_i hc
    · exact h
    · simp only [List.elem_iff] at hc
      simp [List.nodup_append, h, hc]

theorem nodup_jsSetList (l : List String) : (jsSetList l).Nodup :=
  nodup_jsSetList_aux l [] List.nodup_nil

theorem contains_iff (l : List String) (x : String) :
    l.contains x = true ↔ x ∈ l := List.elem_iff

theorem not_contains_iff (l : List String) (x : String) :
    (!l.contains x) = true ↔ x ∉ l := by
  cases hc : l.contains x
  · simpa using fun hm => by rw [(contains_iff l x).mpr hm] at hc; cases hc
  · simpa using (contains_iff l x).mp hc

/-! ## `Array.prototype.slice` and `chunkArray`

`chunkArray` (src/utils.ts and the private `GoogleDriveService.chunkArray`)
is a JS `for` loop `for (let i = 0; i < array.length; i += chunkSize)`
pushing `array.slice(i, i + chunkSize)`.  The index is a JS number that can
go negative when `chunkSize` is negative, so the loop index and the chunk
size are embedded as `Int`; the loop itself is embedded with explicit fuel
because for `chunkSize <= 0` and a non-empty array it never exits. -/

/-- ECMAScript `Array.prototype.slice(st, en)` on a list, with the
negative-index and clamping behaviour of the spec. -/
def jsSlice (a : List α) (st en : Int) : List α :=
  let len : Int := a.length
  let s : Int := if st < 0 then max (len + st) 0 else min st len
  let e : Int := if en < 0 then max (len + en) 0 else min en len
  (a.drop s.toNat).take (e - s).toNat

/-- One fuelled execution of the `chunkArray` loop: `i` is the loop index,
`chunks` the accumulator; `none` means the fuel ran out (the source loop
would still be running). -/
def chunkGo (a : List α) (c : Int) : Nat → Int → List (List α) → Option (List (List α))
  | 0, _, _ => none
  | fuel + 1, i, chunks =>
    if i < (a.length : Int) then
      chunkGo a c fuel (i + c) (chunks ++ [jsSlice a i (i + c)])
    else
      some chunks

/-- `chunkArray(array, chunkSize)`: run the loop with enough fuel for any
positive chunk size. -/
def chunkArray (a : List α) (c : Int) : Option (List (List α)) :=
  chunkGo a c (a.length + 1) 0 []

/-- Reference recursion: chunks of size `k+1`, always defined. -/
def chunksPos (k : Nat) : List α → List (List α)
  | [] => []
  | x :: l => ((x :: l).take (k + 1)) :: chunksPos k ((x :: l).drop (k + 1))
termination_by l => l.length
decreasing_by simp; omega

theorem chunksPos_nil_iff (k : Nat) (l : List α) :
    chunksPos k l = [] ↔ l = [] := by
  cases l <;> simp [chunksPos]

theorem chunksPos_flatten (k : Nat) :
    ∀ (n : Nat) (l : List α), l.length ≤ n → (chunksPos k l).flatten = l
  | _, [], _ => by simp [chunksPos]
  | 0, x :: l, h => by simp at h
  | n + 1, x :: l, h => by
    rw [chunksPos, List.flatten_cons,
      chunksPos_flatten k n (((x :: l).drop (k + 1))) (by simp at h ⊢; omega)]
    exact List.take_append_drop _ _

theorem chunksPos_length_le (k : Nat) :
    ∀ (n : Nat) (l : List α), l.length ≤ n →
      ∀ ch ∈ chunksPos k l, ch.length ≤ k + 1
  | _, [], _ => by simp [chunksPos]
  | 0, x :: l, h => by simp at h
  | n + 1, x :: l, h => by
    rw [chunksPos]
    intro ch hch
    rcases List.mem_cons.mp hch with rfl | hmem
    · simp
    · exact chunksPos_length_le k n _ (by simp at h ⊢; omega) ch hmem

theorem chunksPos_dropLast_length (k : Nat) :
    ∀ (n : Nat) (l : List α), l.length ≤ n →
      ∀ ch ∈ (chunksPos k l).dropLast, ch.length = k + 1
  | _, [], _ => by simp [chunksPos]
  | 0, x :: l, h => by simp at h
  | n + 1, x :: l, h => by
    rw [chunksPos]
    by_cases hrest : (x :: l).drop (k + 1) = []
    · rw [hrest]
      simp [chunksPos]
    · intro ch hch
      rw [List.dropLast_cons_of_ne_nil (by
        simpa [chunksPos_nil_iff] using hrest)] at hch
      rcases List.mem_cons.mp hch with rfl | hmem
      · have hlen : k + 1 ≤ (x :: l).length := by
          by_contra hgt
          exact hrest (List.drop_eq_nil_of_le (by omega))
        simpa using List.length_take_of_le hlen
      · exact chunksPos_dropLast_length k n _ (by simp at h ⊢; omega) ch hmem

theorem jsSlice_nat (a : List α) (i c : Nat) :
    jsSlice a (i : Int) ((i : Int) + (c : Int)) = (a.drop i).take c := by
  simp only [jsSlice]
  rw [if_neg (by omega), if_neg (by omega)]
  by_cases hle2 : i ≤ a.length
  · rw [min_eq_left (by omega : (i : Int) ≤ (a.length : Int))]
    by_cases hce : i + c ≤ a.length
    · rw [min_eq_left (by omega : (i : Int) + (c : Int) ≤ (a.length : Int)),
        show ((i : Int) + (c : Int) - (i : Int)).toNat = c by omega,
        show ((i : Int)).toNat = i by omega]
    · rw [min_eq_right (by omega : (a.length : Int) ≤ (i : Int) + (c : Int)),
        show (((a.length : Int) - (i : Int)).toNat) = a.length - i by omega,
        show ((i : Int)).toNat = i by omega]
      rw [List.take_of_length_le (by simp), List.take_of_length_le (by simp; omega)]
  · rw [min_eq_right (by omega : (a.length : Int) ≤ (i : Int)),
      min_eq_right (by omega : (a.length : Int) ≤ (i : Int) + (c : Int))]
    simp only [sub_self, Int.toNat_zero, List.take_zero]
    rw [List.drop_eq_nil_of_le (by omega), List.take_nil]

theorem chunkGo_eq_chunksPos (k : Nat) (a : List α) :
    ∀ (n : Nat) (i : Nat) (chunks : List (List α)), a.length - i < n →
      chunkGo a ((k : Int) + 1) n (i : Int) chunks =
        some (chunks ++ chunksPos k (a.drop i))
  | 0, i, chunks, h => by omega
  | n + 1, i, chunks, h => by
    rw [chunkGo]
    by_cases hlt : i < a.length
    · rw [if_pos (by exact_mod_cast hlt)]
      have hstep : (i : Int) + ((k : Int) + 1) = ((i + (k + 1) : Nat) : Int) := by
        push_cast; ring
      have hslice : jsSlice a (i : Int) ((i : Int) + ((k : Int) + 1)) =
          (a.drop i).take (k + 1) := by
        exact_mod_cast jsSlice_nat a i (k + 1)
      rw [hslice, hstep,
        chunkGo_eq_chunksPos k a n (i + (k + 1)) _ (by omega)]
      have hdropne : a.drop i ≠ [] := by
        simp only [ne_eq, List.drop_eq_nil_iff, not_le]; omega
      have hexp : chunksPos k (a.drop i) =
          ((a.drop i).take (k + 1)) :: chunksPos k (a.drop (i + (k + 1))) := by
        obtain ⟨x, l, hxl⟩ := List.exists_cons_of_ne_nil hdropne
        rw [hxl, chunksPos, ← hxl, List.drop_drop]
      rw [hexp]
      simp
    · rw [if_neg (by exact_mod_cast hlt)]
      rw [List.drop_eq_nil_of_le (by omega)]
      simp [chunksPos]

theorem chunkArray_eq_chunksPos (a : List α) (c : Int) (hc : 1 ≤ c) :
    chunkArray a c = some (chunksPos (c.toNat - 1) a) := by
  obtain ⟨k, hk⟩ : ∃ k : Nat, c = (k : Int) + 1 := ⟨c.toNat - 1, by omega⟩
  subst hk
  have htoNat : ((k : Int) + 1).toNat - 1 = k := by omega
  rw [htoNat, chunkArray]
  have := chunkGo_eq_chunksPos k a (a.length + 1) 0 [] (by omega)
  simpa using this

theorem chunkGo_none_of_nonpos (a : List α) (c : Int) (hc : c ≤ 0)
    (ha : a ≠ []) :
    ∀ (fuel : Nat) (i : Int) (chunks : List (List α)), i ≤ 0 →
      chunkGo a c fuel i chunks = none
  | 0, _, _, _ => rfl
  | fuel + 1, i, chunks, hi => by
    rw [chunkGo]
    have hlen : 1 ≤ a.length := by
      cases a with
      | nil => exact absurd rfl ha
      | cons x l => simp
    rw [if_pos (by omega)]
    exact chunkGo_none_of_nonpos a c hc ha fuel (i + c) _ (by omega)

/-- C10: for every array and every integer `chunkSize >= 1`, `chunkArray`
terminates, every produced chunk has length at most `chunkSize` (all but
the last exactly `chunkSize`), and the concatenation of the chunks in
order equals the input array; for `chunkSize <= 0` and a non-empty array
the loop never exits (the fuelled loop returns `none` for every fuel), so
`chunkSize >= 1` is a required hypothesis for the embedding to be a total
function. -/
theorem chunkArray_totality_spec (a : List α) (c : Int) :
    (1 ≤ c → ∃ r, chunkArray a c = some r ∧ r.flatten = a ∧
      (∀ ch ∈ r, ch.length ≤ c.toNat) ∧
      (∀ ch ∈ r.dropLast, ch.length = c.toNat)) ∧
    (c ≤ 0 → a ≠ [] → ∀ fuel, chunkGo a c fuel 0 [] = none) := by
  constructor
  · intro hc
    refine ⟨chunksPos (c.toNat - 1) a, chunkArray_eq_chunksPos a c hc, ?_, ?_, ?_⟩
    · exact chunksPos_flatten _ a.length a le_rfl
    · intro ch hch
      have := chunksPos_length_le (c.toNat - 1) a.length a le_rfl ch hch
      omega
    · intro ch hch
      have := chunksPos_dropLast_length (c.toNat - 1) a.length a le_rfl ch hch
      omega
  · intro hc ha fuel
    exact chunkGo_none_of_nonpos a c hc ha fuel 0 [] le_rfl

/-- Witness for C10 at a concrete array and the chunk sizes 2 and 0. -/
theorem chunkArray_totality_spec_witness :
    (∃ r, chunkArray [1, 2, 3] (2 : Int) = some r ∧ r.flatten = [1, 2, 3] ∧
      (∀ ch ∈ r, ch.length ≤ (2 : Int).toNat) ∧
      (∀ ch ∈ r.dropLast, ch.length = (2 : Int).toNat)) ∧
    (∀ fuel, chunkGo [1] (0 : Int) fuel 0 [] = none) :=
  ⟨(chunkArray_totality_spec [1, 2, 3] 2).1 (by norm_num),
   (chunkArray_totality_spec [1] 0).2 (by norm_num) (by simp)⟩

/-! ## String utilities (src/utils.ts, src/utils/index.ts) -/

/-- The apostrophe character. -/
def quoteChar : Char := Char.ofNat 39

/-- The backslash character. -/
def bslashChar : Char := Char.ofNat 92

/-- `replace(/\\/g, '\\\\')`: double every backslash. -/
def replaceBackslashes (l : List Char) : List Char :=
  l.foldr (fun ch acc =>
    if ch == bslashChar then bslashChar :: bslashChar :: acc else ch :: acc) []

/-- `replace(/'/g, "\\'")`: prefix every single quote with a backslash. -/
def replaceQuotesBackslashStyle (l : List Char) : List Char :=
  l.foldr (fun ch acc =>
    if ch == quoteChar then bslashChar :: quoteChar :: acc else ch :: acc) []

/-- `replace(/'/g, "''")`: double every single quote. -/
def replaceQuotesDoubleStyle (l : List Char) : List Char :=
  l.foldr (fun ch acc =>
    if ch == quoteChar then quoteChar :: quoteChar :: acc else ch :: acc) []

namespace SrcUtils

/-- `escapeSingleQuotes` from src/utils.ts:
`str.replace(/\\/g, '\\\\').replace(/'/g, "\\'")`. -/
def escapeSingleQuotes (s : String) : String :=
  String.mk (replaceQuotesBackslashStyle (replaceBackslashes s.data))

end SrcUtils

namespace UtilsIndex

/-- `escapeSingleQuotes` from src/utils/index.ts (used by the
`local-db`/`part_007` `FolderDatabase.search`): `input.replace(/'/g, "''")`. -/
def escapeSingleQuotes (s : String) : String :=
  String.mk (replaceQuotesDoubleStyle s.data)

/-- `escapeQueryString` from src/utils/index.ts:
`str.replace(/\\/g, '\\\\').replace(/'/g, "\\'")`. -/
def escapeQueryString (s : String) : String :=
  String.mk (replaceQuotesBackslashStyle (replaceBackslashes s.data))

end UtilsIndex

/-- The character class `[-\w]` of the id-extraction regex. -/
def isIdChar (ch : Char) : Bool := ch.isAlphanum || ch == '_' || ch == '-'

/-- Scanner realising the leftmost greedy match of `/[-\w]{25,}/`: `cur`
holds the current maximal run of id characters, in reverse order. -/
def extractScan : List Char → List Char → Option String
  | cur, [] => if 25 ≤ cur.length then some (String.mk cur.reverse) else none
  | cur, ch :: rest =>
    if isIdChar ch then extractScan (ch :: cur) rest
    else if 25 ≤ cur.length then some (String.mk cur.reverse)
    else extractScan [] rest

/-- `extractFileIdFromLink` (src/utils/index.ts, also
`GoogleDriveService.extractFileIdFromLink`): the first match of the
regex `/[-\w]{25,}/` in the link, or `null`. -/
def extractFileIdFromLink (link : String) : Option String :=
  extractScan [] link.data

/-! ## Remote file records -/

/-- `GoogleFile` (src/types): the remote view of a file record.  The
`parents` field is optional in the raw API answer; the `FileFetcher`
variant normalises it with `file.parents || []` before storing. -/
structure GoogleFile where
  id : String
  name : String
  parents : Option (List String)
  webViewLink : String
deriving Repr, DecidableEq

/-- JSON string encoding as performed by `JSON.stringify` on the members
of a `parents` array (backslash and quote escaping; Drive ids contain no
control characters). -/
def jsonEncodeString (s : String) : String :=
  "\"" ++ String.mk (s.data.foldr (fun ch acc =>
    if ch == bslashChar then bslashChar :: bslashChar :: acc
    else if ch == '"' then bslashChar :: '"' :: acc
    else ch :: acc) []) ++ "\""

/-- `JSON.stringify` of a string array. -/
def jsonStringifyList (ps : List String) : String :=
  "[" ++ String.intercalate "," (ps.map jsonEncodeString) ++ "]"

/-- `file.parents ? JSON.stringify(file.parents) : null` (an empty array
is truthy in JS, so `some []` is serialized, not nulled). -/
def serializeParents (p : Option (List String)) : Option String :=
  p.map jsonStringifyList

/-! ## Folder closure traversal (`buildFolderTree`)

Embedding of `FileFetcher.buildFolderTree` (identical to
`GoogleDriveService.buildFolderTree` in src/services/googleDriveService.ts):
a depth-first traversal over the flat folder map with a visited set that
is checked before a node is expanded.  The JS recursion carries no fuel;
the embedding makes the call stack explicit with a fuel parameter and
`fm.length + 1` fuel is proved sufficient. -/

/-- A folder entry of the map built by `getAllFolders` (fields
`id`, `name`, `parents` of a `drive_v3.Schema$File`). -/
structure Folder where
  id : String
  name : String
  parents : Option (List String)
deriving Repr, DecidableEq

/-- The inner-loop guard
`childFolder.parents && childFolder.parents.includes(id)`: an absent
`parents` field is falsy; an empty array is truthy but contains nothing. -/
def childOf (pid : String) (f : Folder) : Bool :=
  match f.parents with
  | some ps => ps.contains pid
  | none => false

/-- `folderMap.get(id)` on the map embedded as its list of entries. -/
def findFolder (fm : List Folder) (pid : String) : Option Folder :=
  fm.find? (fun f => f.id == pid)

/-- The expansion guard `folder && folder.parents` of `processFolder`. -/
def expandable (fm : List Folder) (pid : String) : Bool :=
  match findFolder fm pid with
  | some folder => folder.parents.isSome
  | none => false

/-- The inner `for (const [childId, childFolder] of folderMap.entries())`
loop of `processFolder`, abstracted over the recursive call `rec`. -/
def processChildren (rec : String → List String → List String) (pid : String) :
    List Folder → List String → List String
  | [], acc => acc
  | f :: fs, acc =>
    processChildren rec pid fs (if childOf pid f then rec f.id acc else acc)

/-- `processFolder` with explicit call-stack fuel: return if the id is
already visited, otherwise add it, and — when the folder is present in
the map with a `parents` field — recurse into every map entry whose
`parents` contain the id. -/
def processFolder (fm : List Folder) : Nat → String → List String → List String
  | 0, _, acc => acc
  | fuel + 1, pid, acc =>
    if acc.contains pid then acc
    else
      match findFolder fm pid with
      | some folder =>
        if folder.parents.isSome then
          processChildren (processFolder fm fuel) pid fm (acc ++ [pid])
        else acc ++ [pid]
      | none => acc ++ [pid]

/-- `buildFolderTree(folderMap, rootFolderIds)`: fold `processFolder` over
the root ids starting from an empty visited set; `fm.length + 1` fuel is
sufficient for every call (`mem_processFolder`). -/
def buildFolderTree (fm : List Folder) (roots : List String) : List String :=
  roots.foldl (fun acc pid => processFolder fm (fm.length + 1) pid acc) []

/-- Reachability along the edges the traversal actually follows: from
`pid` to the id of a map entry whose `parents` contain `pid`, enabled
only when `pid` is `expandable` (present in the map with a `parents`
field). -/
inductive Reaches (fm : List Folder) : String → String → Prop
  | refl (x : String) : Reaches fm x x
  | head (pid : String) (f : Folder) (y : String)
      (hexp : expandable fm pid = true) (hf : f ∈ fm)
      (hc : childOf pid f = true) (htail : Reaches fm f.id y) :
      Reaches fm pid y

/-- Reachability along effective edges by a path all of whose nodes avoid
the set `A` (the visited set): the standard invariant of an accumulator
DFS. -/
inductive RA (fm : List Folder) (A : List String) : String → String → Prop
  | refl (x : String) (hx : x ∉ A) : RA fm A x x
  | step (pid : String) (f : Folder) (y : String) (hpid : pid ∉ A)
      (hexp : expandable fm pid = true) (hf : f ∈ fm)
      (hc : childOf pid f = true) (htail : RA fm A f.id y) :
      RA fm A pid y

/-- The number of map ids not yet visited, which bounds the useful
recursion depth of `processFolder`. -/
def deficit (fm : List Folder) (acc : List String) : Nat :=
  ((fm.map Folder.id).dedup.filter (fun x => !acc.contains x)).length

theorem RA_start_not_mem {fm : List Folder} {A : List String} {x y : String}
    (h : RA fm A x y) : x ∉ A := by
  cases h with
  | refl _ hx => exact hx
  | step _ _ _ hpid => exact hpid

theorem RA_end_not_mem {fm : List Folder} {A : List String} {x y : String}
    (h : RA fm A x y) : y ∉ A := by
  induction h with
  | refl _ hx => exact hx
  | step _ _ _ _ _ _ _ _ ih => exact ih

theorem RA_anti {fm : List Folder} {A B : List String}
    (hAB : ∀ z, z ∈ A → z ∈ B) {x y : String} (h : RA fm B x y) :
    RA fm A x y := by
  induction h with
  | refl z hz => exact RA.refl z (fun hc => hz (hAB z hc))
  | step pid f y hpid hexp hf hc _ ih =>
    exact RA.step pid f y (fun hcon => hpid (hAB pid hcon)) hexp hf hc ih

theorem RA_trans {fm : List Folder} {A : List String} {x y z : String}
    (h1 : RA fm A x y) (h2 : RA fm A y z) : RA fm A x z := by
  induction h1 with
  | refl _ _ => exact h2
  | step pid f y hpid hexp hf hc _ ih =>
    exact RA.step pid f z hpid hexp hf hc (ih h2)

theorem RA_toReaches {fm : List Folder} {A : List String} {x y : String}
    (h : RA fm A x y) : Reaches fm x y := by
  induction h with
  | refl z _ => exact Reaches.refl z
  | step pid f y _ hexp hf hc _ ih => exact Reaches.head pid f y hexp hf hc ih

theorem RA_eq_of_not_expandable {fm : List Folder} {A : List String}
    {x y : String} (h : RA fm A x y) (hexp : expandable fm x = false) :
    y = x := by
  cases h with
  | refl _ _ => rfl
  | step _ _ _ _ hx => rw [hx] at hexp; exact absurd hexp (by simp)

/-- The absorption step of the DFS invariant: if `B` is `A` together with
everything `RA`-reachable from `c` avoiding `A`, then anything reachable
avoiding `A` is either already in `B` or reachable avoiding `B`. -/
theorem RA_absorb {fm : List Folder} {A B : List String} {c : String}
    (hB : ∀ z, z ∈ B ↔ z ∈ A ∨ RA fm A c z) :
    ∀ {y x : String}, RA fm A y x → x ∈ B ∨ RA fm B y x := by
  intro y x h
  induction h with
  | refl z hz =>
    by_cases hzB : z ∈ B
    · exact Or.inl hzB
    · exact Or.inr (RA.refl z hzB)
  | step pid f y hpid hexp hf hc htail ih =>
    rcases ih with hxB | hra
    · exact Or.inl hxB
    · by_cases hpB : pid ∈ B
      · rcases (hB pid).mp hpB with hpA | hcp
        · exact absurd hpA hpid
        · refine Or.inl ((hB _).mpr (Or.inr ?_))
          exact RA_trans hcp (RA.step pid f y hpid hexp hf hc htail)
      · exact Or.inr (RA.step pid f y hpB hexp hf hc hra)

theorem processChildren_extends (rec : String → List String → List String)
    (hrec : ∀ cid a, ∃ t, rec cid a = a ++ t) (pid : String) :
    ∀ (l : List Folder) (acc : List String),
      ∃ t, processChildren rec pid l acc = acc ++ t
  | [], acc => ⟨[], by simp [processChildren]⟩
  | f :: fs, acc => by
    rw [processChildren]
    by_cases hc : childOf pid f = true
    · rw [if_pos hc]
      obtain ⟨t1, ht1⟩ := hrec f.id acc
      obtain ⟨t2, ht2⟩ := processChildren_extends rec hrec pid fs (rec f.id acc)
      exact ⟨t1 ++ t2, by rw [ht2, ht1, List.append_assoc]⟩
    · rw [if_neg hc]
      exact processChildren_extends rec hrec pid fs acc

theorem processFolder_extends (fm : List Folder) :
    ∀ (fuel : Nat) (pid : String) (acc : List String),
      ∃ t, processFolder fm fuel pid acc = acc ++ t
  | 0, _, acc => ⟨[], by simp [processFolder]⟩
  | fuel + 1, pid, acc => by
    rw [processFolder]
    by_cases hvis : acc.contains pid
    · rw [if_pos hvis]; exact ⟨[], by simp⟩
    · rw [if_neg hvis]
      cases hfind : findFolder fm pid with
      | none => exact ⟨[pid], rfl⟩
      | some folder =>
        dsimp only
        by_cases hps : folder.parents.isSome
        · rw [if_pos hps]
          obtain ⟨t, ht⟩ := processChildren_extends (processFolder fm fuel)
            (fun cid a => processFolder_extends fm fuel cid a) pid fm (acc ++ [pid])
          exact ⟨[pid] ++ t, by rw [ht, List.append_assoc]⟩
        · rw [if_neg hps]
          exact ⟨[pid], rfl⟩

theorem mem_processFolder_of_mem {fm : List Folder} {fuel : Nat} {pid : String}
    {acc : List String} {x : String} (h : x ∈ acc) :
    x ∈ processFolder fm fuel pid acc := by
  obtain ⟨t, ht⟩ := processFolder_extends fm fuel pid acc
  rw [ht]
  exact List.mem_append_left _ h

theorem processChildren_nodup (rec : String → List String → List String)
    (hrec : ∀ cid a, a.Nodup → (rec cid a).Nodup) (pid : String) :
    ∀ (l : List Folder) (acc : List String), acc.Nodup →
      (processChildren rec pid l acc).Nodup
  | [], _, h => h
  | f :: fs, acc, h => by
    rw [processChildren]
    by_cases hc : childOf pid f = true
    · rw [if_pos hc]
      exact processChildren_nodup rec hrec pid fs _ (hrec f.id acc h)
    · rw [if_neg hc]
      exact processChildren_nodup rec hrec pid fs acc h

theorem processFolder_nodup (fm : List Folder) :
    ∀ (fuel : Nat) (pid : String) (acc : List String), acc.Nodup →
      (processFolder fm fuel pid acc).Nodup
  | 0, _, _, h => h
  | fuel + 1, pid, acc, h => by
    rw [processFolder]
    by_cases hvis : acc.contains pid
    · rw [if_pos hvis]; exact h
    · rw [if_neg hvis]
      have hacc1 : (acc ++ [pid]).Nodup := by
        have hpid : pid ∉ acc := fun hm => hvis ((contains_iff acc pid).mpr hm)
        simp [List.nodup_append, h, hpid]
      cases hfind : findFolder fm pid with
      | none => exact hacc1
      | some folder =>
        dsimp only
        by_cases hps : folder.parents.isSome
        · rw [if_pos hps]
          exact processChildren_nodup (processFolder fm fuel)
            (fun cid a => processFolder_nodup fm fuel cid a) pid fm _ hacc1
        · rw [if_neg hps]
          exact hacc1

theorem filter_length_mono (l : List String) (p q : String → Bool)
    (h : ∀ x, p x = true → q x = true) :
    (l.filter p).length ≤ (l.filter q).length := by
  induction l with
  | nil => exact le_rfl
  | cons a t ih =>
    simp only [List.filter_cons]
    cases hp : p a with
    | true => rw [h a hp]; simpa using ih
    | false => cases hq : q a <;> simp <;> omega

theorem filter_length_strict (l : List String) (p q : String → Bool)
    (h : ∀ x, p x = true → q x = true) (x : String) (hx : x ∈ l)
    (hqx : q x = true) (hpx : p x = false) :
    (l.filter p).length < (l.filter q).length := by
  induction l with
  | nil => simp at hx
  | cons a t ih =>
    simp only [List.filter_cons]
    rcases List.mem_cons.mp hx with rfl | hxt
    · have := filter_length_mono t p q h
      simp [hqx, hpx]
      omega
    · have hlt := ih hxt
      cases hp : p a with
      | true => rw [h a hp]; simpa using hlt
      | false => cases hq : q a <;> simp <;> omega

theorem deficit_le (fm : List Folder) (acc : List String) :
    deficit fm acc ≤ fm.length := by
  calc ((fm.map Folder.id).dedup.filter (fun x => !acc.contains x)).length
      ≤ (fm.map Folder.id).dedup.length := List.length_filter_le _ _
    _ ≤ (fm.map Folder.id).length := (List.dedup_sublist _).length_le
    _ = fm.length := List.length_map _ _

theorem deficit_mono (fm : List Folder) (acc acc' : List String)
    (h : ∀ z ∈ acc, z ∈ acc') : deficit fm acc' ≤ deficit fm acc := by
  refine filter_length_mono _ _ _ ?_
  intro z hz
  rw [not_contains_iff] at hz ⊢
  exact fun hc => hz (h z hc)

theorem mem_mapIds_of_findFolder {fm : List Folder} {pid : String}
    (hfind : (findFolder fm pid).isSome) : pid ∈ fm.map Folder.id := by
  rw [findFolder, List.find?_isSome] at hfind
  obtain ⟨f, hf, hfp⟩ := hfind
  rw [List.mem_map]
  exact ⟨f, hf, by simpa using hfp⟩

theorem deficit_lt (fm : List Folder) (acc : List String) (pid : String)
    (hpid : pid ∉ acc) (hfind : (findFolder fm pid).isSome) :
    deficit fm (acc ++ [pid]) < deficit fm acc := by
  refine filter_length_strict _ _ _ ?_ pid
    (List.mem_dedup.mpr (mem_mapIds_of_findFolder hfind)) ?_ ?_
  · intro z hz
    rw [not_contains_iff] at hz ⊢
    exact fun hc => hz (List.mem_append.mpr (Or.inl hc))
  · rw [not_contains_iff]
    exact hpid
  · simp [contains_iff]

/-- Inserting one point `v` into the avoid set: a path avoiding `A`
either ends inside `A ++ [v]`, or avoids `A ++ [v]` altogether, or can be
restarted below `v` at one of the children of `v`. -/
theorem RA_insert {fm : List Folder} {A : List String} (v : String) :
    ∀ {y x : String}, RA fm A y x →
      x ∈ A ++ [v] ∨ RA fm (A ++ [v]) y x ∨
      ∃ f, f ∈ fm ∧ childOf v f = true ∧ expandable fm v = true ∧
        RA fm (A ++ [v]) f.id x := by
  intro y x h
  induction h with
  | refl z hz =>
    by_cases hzv : z = v
    · exact Or.inl (by simp [hzv])
    · exact Or.inr (Or.inl (RA.refl z (by simp [hz, hzv])))
  | step pid f y hpid hexp hf hc htail ih =>
    rcases ih with hxm | hra | hrest
    · exact Or.inl hxm
    · by_cases hpv : pid = v
      · subst hpv
        exact Or.inr (Or.inr ⟨f, hf, hc, hexp, hra⟩)
      · exact Or.inr (Or.inl (RA.step pid f y (by simp [hpid, hpv]) hexp hf hc hra))
    · exact Or.inr (Or.inr hrest)

/-- The key invariant of the inner loop: starting from visited set `acc`,
the loop over entries `l` adds exactly what is `RA`-reachable (avoiding
`acc`) from the children of `pid` listed in `l`. -/
theorem processChildren_mem (fm : List Folder) (n : Nat)
    (rec : String → List String → List String)
    (hrec : ∀ cid a, deficit fm a < n →
      ∀ x, x ∈ rec cid a ↔ x ∈ a ∨ RA fm a cid x)
    (pid : String) :
    ∀ (l : List Folder), (∀ f ∈ l, f ∈ fm) →
      ∀ (acc : List String), deficit fm acc < n →
      ∀ x, x ∈ processChildren rec pid l acc ↔
        x ∈ acc ∨ ∃ f ∈ l, childOf pid f = true ∧ RA fm acc f.id x
  | [], _, acc, _, x => by simp [processChildren]
  | f :: fs, hl, acc, hdef, x => by
    rw [processChildren]
    by_cases hc : childOf pid f = true
    · rw [if_pos hc]
      have hB : ∀ z, z ∈ rec f.id acc ↔ z ∈ acc ∨ RA fm acc f.id z :=
        hrec f.id acc hdef
      have hsup : ∀ z ∈ acc, z ∈ rec f.id acc :=
        fun z hz => (hB z).mpr (Or.inl hz)
      have hdef' : deficit fm (rec f.id acc) < n :=
        lt_of_le_of_lt (deficit_mono fm acc _ hsup) hdef
      rw [processChildren_mem fm n rec hrec pid fs
        (fun g hg => hl g (List.mem_cons_of_mem f hg)) (rec f.id acc) hdef' x]
      constructor
      · rintro (hx | ⟨g, hg, hcg, hra⟩)
        · rcases (hB x).mp hx with hx | hra
          · exact Or.inl hx
          · exact Or.inr ⟨f, List.mem_cons_self f fs, hc, hra⟩
        · exact Or.inr ⟨g, List.mem_cons_of_mem f hg, hcg, RA_anti hsup hra⟩
      · rintro (hx | ⟨g, hg, hcg, hra⟩)
        · exact Or.inl ((hB x).mpr (Or.inl hx))
        · rcases List.mem_cons.mp hg with rfl | hgfs
          · exact Or.inl ((hB x).mpr (Or.inr hra))
          · rcases RA_absorb hB hra with hx | hra'
            · exact Or.inl hx
            · exact Or.inr ⟨g, hgfs, hcg, hra'⟩
    · rw [if_neg hc]
      rw [processChildren_mem fm n rec hrec pid fs
        (fun g hg => hl g (List.mem_cons_of_mem f hg)) acc hdef x]
      constructor
      · rintro (hx | ⟨g, hg, hcg, hra⟩)
        · exact Or.inl hx
        · exact Or.inr ⟨g, List.mem_cons_of_mem f hg, hcg, hra⟩
      · rintro (hx | ⟨g, hg, hcg, hra⟩)
        · exact Or.inl hx
        · rcases List.mem_cons.mp hg with rfl | hgfs
          · exact absurd hcg hc
          · exact Or.inr ⟨g, hgfs, hcg, hra⟩

/-- Main characterization of `processFolder`: with fuel above the deficit
bound, the call adds exactly the ids `RA`-reachable from `pid` avoiding
the current visited set. -/
theorem mem_processFolder (fm : List Folder) :
    ∀ (fuel : Nat) (acc : List String) (pid : String), deficit fm acc < fuel →
      ∀ x, x ∈ processFolder fm fuel pid acc ↔ x ∈ acc ∨ RA fm acc pid x
  | 0, acc, pid, hdef => by omega
  | fuel + 1, acc, pid, hdef => by
    intro x
    rw [processFolder]
    by_cases hvis : acc.contains pid
    · rw [if_pos hvis]
      have hpid : pid ∈ acc := (contains_iff acc pid).mp hvis
      constructor
      · exact Or.inl
      · rintro (hx | hra)
        · exact hx
        · exact absurd hpid (RA_start_not_mem hra)
    · rw [if_neg hvis]
      have hpid : pid ∉ acc := fun hm => hvis ((contains_iff acc pid).mpr hm)
      cases hfind : findFolder fm pid with
      | none =>
        have hexp : expandable fm pid = false := by simp [expandable, hfind]
        constructor
        · intro hx
          rcases List.mem_append.mp hx with hx | hx
          · exact Or.inl hx
          · simp only [List.mem_singleton] at hx
            exact Or.inr (by rw [hx]; exact RA.refl pid hpid)
        · rintro (hx | hra)
          · exact List.mem_append_left _ hx
          · have hxeq := RA_eq_of_not_expandable hra hexp
            exact List.mem_append_right _ (by simp [hxeq])
      | some folder =>
        dsimp only
        by_cases hps : folder.parents.isSome
        · rw [if_pos hps]
          have hexp : expandable fm pid = true := by simp [expandable, hfind, hps]
          have hdef1 : deficit fm (acc ++ [pid]) < fuel := by
            have := deficit_lt fm acc pid hpid (by simp [hfind])
            omega
          rw [processChildren_mem fm fuel (processFolder fm fuel)
            (fun cid a hda => mem_processFolder fm fuel a cid hda) pid fm
            (fun g hg => hg) (acc ++ [pid]) hdef1 x]
          constructor
          · rintro (hx | ⟨f, hf, hcf, hra⟩)
            · rcases List.mem_append.mp hx with hx | hx
              · exact Or.inl hx
              · simp only [List.mem_singleton] at hx
                exact Or.inr (by rw [hx]; exact RA.refl pid hpid)
            · have hra' : RA fm acc f.id x :=
                RA_anti (fun z hz => List.mem_append_left _ hz) hra
              exact Or.inr (RA.step pid f x hpid hexp hf hcf hra')
          · rintro (hx | hra)
            · exact Or.inl (List.mem_append_left _ hx)
            · cases hra with
              | refl _ _ => exact Or.inl (List.mem_append_right _ (by simp))
              | step _ f2 _ hpid2 hexp2 hf2 hc2 htail =>
                rcases RA_insert pid htail with hxm | hra' | ⟨g, hg, hcg, hexpg, hra'⟩
                · exact Or.inl hxm
                · exact Or.inr ⟨f2, hf2, hc2, hra'⟩
                · exact Or.inr ⟨g, hg, hcg, hra'⟩
        · rw [if_neg hps]
          have hexp : expandable fm pid = false := by simp [expandable, hfind, hps]
          constructor
          · intro hx
            rcases List.mem_append.mp hx with hx | hx
            · exact Or.inl hx
            · simp only [List.mem_singleton] at hx
              exact Or.inr (by rw [hx]; exact RA.refl pid hpid)
          · rintro (hx | hra)
            · exact List.mem_append_left _ hx
            · have hxeq := RA_eq_of_not_expandable hra hexp
              exact List.mem_append_right _ (by simp [hxeq])

theorem deficit_lt_fuel (fm : List Folder) (acc : List String) :
    deficit fm acc < fm.length + 1 := Nat.lt_succ_of_le (deficit_le fm acc)

theorem buildFolderTree_go_extends (fm : List Folder) :
    ∀ (rs : List String) (acc : List String),
      ∃ t, rs.foldl (fun a pid => processFolder fm (fm.length + 1) pid a) acc =
        acc ++ t
  | [], acc => ⟨[], by simp⟩
  | r :: rs, acc => by
    simp only [List.foldl_cons]
    obtain ⟨t1, ht1⟩ := processFolder_extends fm (fm.length + 1) r acc
    obtain ⟨t2, ht2⟩ :=
      buildFolderTree_go_extends fm rs (processFolder fm (fm.length + 1) r acc)
    exact ⟨t1 ++ t2, by rw [ht2, ht1, List.append_assoc]⟩

theorem bt_go_sound (fm : List Folder) (roots0 : List String) :
    ∀ (rs : List String) (acc : List String),
      (∀ r ∈ rs, r ∈ roots0) →
      (∀ y ∈ acc, ∃ r ∈ roots0, Reaches fm r y) →
      ∀ x ∈ rs.foldl (fun a pid => processFolder fm (fm.length + 1) pid a) acc,
        ∃ r ∈ roots0, Reaches fm r x
  | [], _, _, hacc, x, hx => hacc x hx
  | r :: rs, acc, hrs, hacc, x, hx => by
    simp only [List.foldl_cons] at hx
    refine bt_go_sound fm roots0 rs _
      (fun q hq => hrs q (List.mem_cons_of_mem r hq)) ?_ x hx
    intro y hy
    rcases (mem_processFolder fm (fm.length + 1) acc r
      (deficit_lt_fuel fm acc) y).mp hy with hy | hra
    · exact hacc y hy
    · exact ⟨r, hrs r (List.mem_cons_self r rs), RA_toReaches hra⟩

theorem bt_go_root_mem (fm : List Folder) :
    ∀ (rs : List String) (acc : List String) (r : String), r ∈ rs →
      r ∈ rs.foldl (fun a pid => processFolder fm (fm.length + 1) pid a) acc
  | [], _, _, h => by simp at h
  | p :: rs, acc, r, h => by
    simp only [List.foldl_cons]
    rcases List.mem_cons.mp h with rfl | hr
    · have hmem : r ∈ processFolder fm (fm.length + 1) r acc := by
        rw [mem_processFolder fm _ acc r (deficit_lt_fuel fm acc)]
        by_cases hracc : r ∈ acc
        · exact Or.inl hracc
        · exact Or.inr (RA.refl r hracc)
      obtain ⟨t, ht⟩ :=
        buildFolderTree_go_extends fm rs (processFolder fm (fm.length + 1) r acc)
      rw [ht]
      exact List.mem_append_left _ hmem
    · exact bt_go_root_mem fm rs _ r hr

theorem bt_go_closed (fm : List Folder) :
    ∀ (rs : List String) (acc : List String) (pid : String) (f : Folder),
      pid ∈ rs.foldl (fun a p => processFolder fm (fm.length + 1) p a) acc →
      expandable fm pid = true → f ∈ fm → childOf pid f = true →
      f.id ∈ rs.foldl (fun a p => processFolder fm (fm.length + 1) p a) acc ∨
        pid ∈ acc
  | [], _, _, _, hmem, _, _, _ => Or.inr hmem
  | r :: rs, acc, pid, f, hmem, hexp, hf, hc => by
    simp only [List.foldl_cons] at hmem ⊢
    rcases bt_go_closed fm rs _ pid f hmem hexp hf hc with hin | hacc1
    · exact Or.inl hin
    · rcases (mem_processFolder fm _ acc r
        (deficit_lt_fuel fm acc) pid).mp hacc1 with hpacc | hra
      · exact Or.inr hpacc
      · by_cases hfid : f.id ∈ acc
        · have hmem1 : f.id ∈ processFolder fm (fm.length + 1) r acc :=
            mem_processFolder_of_mem hfid
          obtain ⟨t, ht⟩ := buildFolderTree_go_extends fm rs _
          exact Or.inl (by rw [ht]; exact List.mem_append_left _ hmem1)
        · have hnotacc : pid ∉ acc := RA_end_not_mem hra
          have hstep : RA fm acc pid f.id :=
            RA.step pid f f.id hnotacc hexp hf hc (RA.refl f.id hfid)
          have hmem1 : f.id ∈ processFolder fm (fm.length + 1) r acc := by
            rw [mem_processFolder fm _ acc r (deficit_lt_fuel fm acc)]
            exact Or.inr (RA_trans hra hstep)
          obtain ⟨t, ht⟩ := buildFolderTree_go_extends fm rs _
          exact Or.inl (by rw [ht]; exact List.mem_append_left _ hmem1)

theorem buildFolderTree_closed (fm : List Folder) (roots : List String)
    {pid : String} {f : Folder} (hmem : pid ∈ buildFolderTree fm roots)
    (hexp : expandable fm pid = true) (hf : f ∈ fm)
    (hc : childOf pid f = true) : f.id ∈ buildFolderTree fm roots := by
  rcases bt_go_closed fm roots [] pid f hmem hexp hf hc with h | h
  · exact h
  · simp at h

theorem buildFolderTree_mem_of_reaches (fm : List Folder) (roots : List String)
    {s x : String} (h : Reaches fm s x) :
    s ∈ buildFolderTree fm roots → x ∈ buildFolderTree fm roots := by
  induction h with
  | refl z => exact fun hs => hs
  | head pid f y hexp hf hc htail ih =>
    exact fun hs => ih (buildFolderTree_closed fm roots hs hexp hf hc)

/-- C4 (amended): for every folder map and every sequence of root ids,
the service-variant `buildFolderTree` terminates and returns, without
duplicates, exactly the ids reachable from the roots (each root reaching
itself) along the effective edges of the traversal: a folder's children
are explored only when the folder is present in the map with a `parents`
field. -/
theorem buildFolderTree_closure_spec (fm : List Folder) (roots : List String) :
    (buildFolderTree fm roots).Nodup ∧
    ∀ x, x ∈ buildFolderTree fm roots ↔ ∃ r ∈ roots, Reaches fm r x := by
  constructor
  · have hgo : ∀ (rs : List String) (acc : List String), acc.Nodup →
        (rs.foldl (fun a pid => processFolder fm (fm.length + 1) pid a) acc).Nodup := by
      intro rs
      induction rs with
      | nil => exact fun _ h => h
      | cons r rs ih =>
        intro acc h
        simp only [List.foldl_cons]
        exact ih _ (processFolder_nodup fm _ r acc h)
    exact hgo roots [] List.nodup_nil
  · intro x
    constructor
    · intro hx
      exact bt_go_sound fm roots roots [] (fun r hr => hr) (by simp) x hx
    · rintro ⟨r, hr, hreach⟩
      exact buildFolderTree_mem_of_reaches fm roots hreach
        (bt_go_root_mem fm roots [] r hr)

/-- The two-folder map of the C4 counterexample: `A` is present in the
map but carries no `parents` field; `B` lists `A` as its parent. -/
def fmParentless : List Folder :=
  [⟨"A", "folder a", none⟩, ⟨"B", "folder b", some ["A"]⟩]

/-- Reachability via the parent relation exactly as the spec words it,
with no side condition on the parent node (spec-side definition for the
refinement comparison). -/
inductive SpecReaches (fm : List Folder) : String → String → Prop
  | refl (x : String) : SpecReaches fm x x
  | head (pid : String) (f : Folder) (y : String) (hf : f ∈ fm)
      (hc : pid ∈ f.parents.getD []) (htail : SpecReaches fm f.id y) :
      SpecReaches fm pid y

/-- C4 counterexample: folder `B` is reachable from root `A` via the
parent relation, yet `buildFolderTree` does not return it, because the
map entry for `A` has no `parents` field and the traversal refuses to
expand such a node. -/
theorem buildFolderTree_misses_reachable :
    SpecReaches fmParentless "A" "B" ∧
    "B" ∉ buildFolderTree fmParentless ["A"] := by
  constructor
  · exact SpecReaches.head "A" ⟨"B", "folder b", some ["A"]⟩ "B"
      (by simp [fmParentless]) (by simp) (SpecReaches.refl "B")
  · decide

/-- C8 (amended): a root id absent from the folder map is skipped without
error and without expanding any children — the `processFolder` call adds
exactly the id itself to the visited set, and the fold continues over the
remaining roots — but the absent id itself IS included in the returned
closure list. -/
theorem missing_root_skipped (fm : List Folder) (roots : List String)
    (r : String) (hfind : findFolder fm r = none) (hr : r ∈ roots) :
    r ∈ buildFolderTree fm roots ∧
    ∀ (fuel : Nat) (acc : List String),
      processFolder fm (fuel + 1) r acc =
        if acc.contains r then acc else acc ++ [r] := by
  refine ⟨bt_go_root_mem fm roots [] r hr, ?_⟩
  intro fuel acc
  rw [processFolder, hfind]

/-- Witness for C8 (amended) at a concrete absent root. -/
theorem missing_root_skipped_witness :
    "X" ∈ buildFolderTree ([] : List Folder) ["X"] ∧
    ∀ (fuel : Nat) (acc : List String),
      processFolder [] (fuel + 1) "X" acc =
        if acc.contains "X" then acc else acc ++ ["X"] :=
  missing_root_skipped [] ["X"] "X" rfl (by simp)

/-- C8 counterexample: the absent root id does contribute to the returned
closure set — it is itself an element of the result. -/
theorem missing_root_in_result :
    findFolder ([] : List Folder) "X" = none ∧
    "X" ∈ buildFolderTree ([] : List Folder) ["X"] := by
  constructor
  · rfl
  · decide

/-! ## Batched file query engine (`searchFilesInFolders`)

Embedding of `FileFetcher.searchFilesInFolders` (empty text query, the
call made by `fetchAllFiles`): the folder-id set is chunked, one filter
expression `(('f1' in parents) or ...) and mimeType != folder and
trashed = false` is issued per chunk, and results are concatenated.  The
remote store is a list of records with server-side fields; the source
fixes `chunkSize = 5`, the claim quantifies over it, so it is a parameter
here. -/

/-- The server-side view of one remote file: the `GoogleFile` projection
plus the fields the query filters on. -/
structure RemoteFile where
  file : GoogleFile
  mimeType : String
  trashed : Bool
deriving Repr, DecidableEq

def folderMimeType : String := "application/vnd.google-apps.folder"

/-- Semantics of one `files.list` filter for a folder-id set. -/
def matchesQuery (folderIds : List String) (rf : RemoteFile) : Bool :=
  (rf.file.parents.getD []).any (fun p => folderIds.contains p) &&
    rf.mimeType != folderMimeType && !rf.trashed

/-- One fully paginated `files.list` call over the remote store. -/
def listQuery (univ : List RemoteFile) (folderIds : List String) :
    List GoogleFile :=
  (univ.filter (matchesQuery folderIds)).map RemoteFile.file

/-- `searchFilesInFolders(folderIds, '')` over remote store `univ`:
chunk the folder ids, issue one query per chunk, concatenate the pages;
`none` when the chunking loop does not terminate. -/
def searchFilesInFolders (univ : List RemoteFile) (folderIds : List String)
    (chunkSize : Int) : Option (List GoogleFile) :=
  (chunkArray folderIds chunkSize).map
    (fun chunks =>
      chunks.foldl (fun files chunk => files ++ listQuery univ chunk) [])

/-- Deduplication by id keeping the first record per id — the fetched-set
semantics applied by the reconciliation caller. -/
def dedupById (files : List GoogleFile) : List GoogleFile :=
  files.foldl
    (fun acc f => if acc.any (fun g => g.id == f.id) then acc else acc ++ [f]) []

theorem mem_listQuery (univ : List RemoteFile) (ids : List String)
    (g : GoogleFile) :
    g ∈ listQuery univ ids ↔
      ∃ rf ∈ univ, rf.file = g ∧ matchesQuery ids rf = true := by
  simp only [listQuery, List.mem_map, List.mem_filter]
  constructor
  · rintro ⟨rf, ⟨hrf, hm⟩, rfl⟩
    exact ⟨rf, hrf, rfl, hm⟩
  · rintro ⟨rf, hrf, rfl, hm⟩
    exact ⟨rf, ⟨hrf, hm⟩, rfl⟩

theorem mem_queryFold (univ : List RemoteFile) (g : GoogleFile) :
    ∀ (chunks : List (List String)) (init : List GoogleFile),
      g ∈ chunks.foldl (fun files chunk => files ++ listQuery univ chunk) init ↔
        g ∈ init ∨ ∃ chunk ∈ chunks, g ∈ listQuery univ chunk
  | [], init => by simp
  | chunk :: chunks, init => by
    simp only [List.foldl_cons]
    rw [mem_queryFold univ g chunks (init ++ listQuery univ chunk)]
    simp only [List.mem_append, List.mem_cons]
    constructor
    · rintro ((h | h) | ⟨c, hc, hg⟩)
      · exact Or.inl h
      · exact Or.inr ⟨chunk, Or.inl rfl, h⟩
      · exact Or.inr ⟨c, Or.inr hc, hg⟩
    · rintro (h | ⟨c, (rfl | hc), hg⟩)
      · exact Or.inl (Or.inl h)
      · exact Or.inl (Or.inr hg)
      · exact Or.inr ⟨c, hc, hg⟩

theorem mem_dedupById_aux (univFiles : List GoogleFile)
    (hinj : ∀ f g : GoogleFile, f ∈ univFiles →
      g ∈ univFiles → f.id = g.id → f = g) :
    ∀ (l acc : List GoogleFile), (∀ f ∈ acc, f ∈ univFiles) →
      (∀ f ∈ l, f ∈ univFiles) →
      ∀ x, x ∈ l.foldl (fun acc f =>
          if acc.any (fun g => g.id == f.id) then acc else acc ++ [f]) acc ↔
        x ∈ acc ∨ x ∈ l
  | [], acc, _, _, x => by simp
  | f :: fs, acc, hacc, hl, x => by
    simp only [List.foldl_cons]
    by_cases hany : acc.any (fun g => g.id == f.id) = true
    · rw [if_pos hany]
      obtain ⟨g, hg, hgid⟩ := List.any_eq_true.mp hany
      have hgf : g = f :=
        hinj g f (hacc g hg) (hl f (List.mem_cons_self f fs)) (by simpa using hgid)
      rw [mem_dedupById_aux univFiles hinj fs acc hacc
        (fun q hq => hl q (List.mem_cons_of_mem f hq)) x]
      subst hgf
      simp only [List.mem_cons]
      constructor
      · rintro (h | h)
        · exact Or.inl h
        · exact Or.inr (Or.inr h)
      · rintro (h | rfl | h)
        · exact Or.inl h
        · exact Or.inl hg
        · exact Or.inr h
    · rw [if_neg hany]
      rw [mem_dedupById_aux univFiles hinj fs (acc ++ [f])
        (by intro q hq
            rcases List.mem_append.mp hq with hq | hq
            · exact hacc q hq
            · simp only [List.mem_singleton] at hq
              exact hq ▸ hl f (List.mem_cons_self f fs))
        (fun q hq => hl q (List.mem_cons_of_mem f hq)) x]
      simp only [List.mem_append, List.mem_singleton, List.mem_cons]
      tauto

/-- C5: for every remote store with id-unique records, every folder-id
set and every chunk size `C >= 1`, the merged, deduplicated-by-id result
of issuing one file query per `C`-sized chunk contains exactly the
records of the single unbounded query over the whole folder-id set:
chunking neither loses a record nor introduces one. -/
theorem chunking_complete (univ : List RemoteFile) (folderIds : List String)
    (c : Int) (hc : 1 ≤ c)
    (hnodup : (univ.map (fun rf => rf.file.id)).Nodup) :
    ∃ files, searchFilesInFolders univ folderIds c = some files ∧
      ∀ g, g ∈ dedupById files ↔ g ∈ listQuery univ folderIds := by
  have hinj : ∀ rf rg : RemoteFile, rf ∈ univ → rg ∈ univ →
      rf.file.id = rg.file.id → rf = rg :=
    fun rf rg hrf hrg h => List.inj_on_of_nodup_map hnodup hrf hrg h
  rw [searchFilesInFolders, chunkArray_eq_chunksPos folderIds c hc, Option.map_some']
  set chunks := chunksPos (c.toNat - 1) folderIds with hchunks
  have hflat : chunks.flatten = folderIds := chunksPos_flatten _ _ folderIds le_rfl
  refine ⟨_, rfl, ?_⟩
  intro g
  have hmemchunks : ∀ p, p ∈ folderIds ↔ ∃ chunk ∈ chunks, p ∈ chunk := by
    intro p
    rw [← hflat, List.mem_flatten]
  have hfilesinj : ∀ f g : GoogleFile,
      f ∈ chunks.foldl (fun files chunk => files ++ listQuery univ chunk) [] →
      g ∈ chunks.foldl (fun files chunk => files ++ listQuery univ chunk) [] →
      f.id = g.id → f = g := by
    intro f g hf hg hid
    rcases (mem_queryFold univ f chunks []).mp hf with h | ⟨cf, _, hfq⟩
    · simp at h
    rcases (mem_queryFold univ g chunks []).mp hg with h | ⟨cg, _, hgq⟩
    · simp at h
    obtain ⟨rf, hrf, rfl, _⟩ := (mem_listQuery univ cf f).mp hfq
    obtain ⟨rg, hrg, rfl, _⟩ := (mem_listQuery univ cg g).mp hgq
    rw [hinj rf rg hrf hrg hid]
  rw [dedupById, mem_dedupById_aux _ hfilesinj _ [] (by simp) (fun q hq => hq) g]
  simp only [List.not_mem_nil, false_or]
  rw [mem_queryFold univ g chunks [], mem_listQuery univ folderIds g]
  simp only [List.not_mem_nil, false_or]
  constructor
  · rintro ⟨chunk, hchunk, hg⟩
    obtain ⟨rf, hrf, rfl, hm⟩ := (mem_listQuery univ chunk g).mp hg
    refine ⟨rf, hrf, rfl, ?_⟩
    simp only [matchesQuery, Bool.and_eq_true, List.any_eq_true] at hm ⊢
    obtain ⟨⟨⟨p, hp, hpc⟩, hmime⟩, htr⟩ := hm
    refine ⟨⟨⟨p, hp, ?_⟩, hmime⟩, htr⟩
    rw [contains_iff] at hpc ⊢
    exact (hmemchunks p).mpr ⟨chunk, hchunk, hpc⟩
  · rintro ⟨rf, hrf, rfl, hm⟩
    simp only [matchesQuery, Bool.and_eq_true, List.any_eq_true] at hm
    obtain ⟨⟨⟨p, hp, hpc⟩, hmime⟩, htr⟩ := hm
    rw [contains_iff] at hpc
    obtain ⟨chunk, hchunk, hpchunk⟩ := (hmemchunks p).mp hpc
    refine ⟨chunk, hchunk, ?_⟩
    rw [mem_listQuery univ chunk]
    refine ⟨rf, hrf, rfl, ?_⟩
    simp only [matchesQuery, Bool.and_eq_true, List.any_eq_true]
    exact ⟨⟨⟨p, hp, (contains_iff _ _).mpr hpchunk⟩, hmime⟩, htr⟩

/-- Witness for C5 at a concrete two-folder store with chunk size 1. -/
theorem chunking_complete_witness :
    ∃ files,
      searchFilesInFolders
        [⟨⟨"f1", "n1", some ["d1"], "w1"⟩, "application/pdf", false⟩,
         ⟨⟨"f2", "n2", some ["d2"], "w2"⟩, "application/pdf", false⟩]
        ["d1", "d2"] 1 = some files ∧
      ∀ g, g ∈ dedupById files ↔ g ∈ listQuery
        [⟨⟨"f1", "n1", some ["d1"], "w1"⟩, "application/pdf", false⟩,
         ⟨⟨"f2", "n2", some ["d2"], "w2"⟩, "application/pdf", false⟩]
        ["d1", "d2"] :=
  chunking_complete _ _ 1 (by norm_num) (by decide)

/-! ## Reconciliation store: 4-column variants

Rows of the `files` table in `src/database.ts` (class with
`INSERT OR REPLACE` and an unguarded delete) and
`src/database/database.ts` (upsert via `ON CONFLICT(id) DO UPDATE`
inside an explicit transaction, guarded delete).  A statement-failure
oracle injects the database errors the source handles with
try/catch/ROLLBACK. -/

/-- A row of the 4-column `files` table:
`id PRIMARY KEY, name NOT NULL, parents TEXT, webViewLink NOT NULL`. -/
structure DbRow4 where
  id : String
  name : String
  parents : Option String
  webViewLink : String
deriving Repr, DecidableEq

/-- The row written for a fetched record
(`file.parents ? JSON.stringify(file.parents) : null`). -/
def rowOfFile (f : GoogleFile) : DbRow4 :=
  ⟨f.id, f.name, serializeParents f.parents, f.webViewLink⟩

/-- `INSERT ... ON CONFLICT(id) DO UPDATE SET name, parents, webViewLink`
(database/database.ts): update the conflicting row in place, or append a
new row. -/
def upsertRow4 (store : List DbRow4) (f : GoogleFile) : List DbRow4 :=
  if store.any (fun r => r.id == f.id) then
    store.map (fun r => if r.id == f.id then rowOfFile f else r)
  else store ++ [rowOfFile f]

/-- `INSERT OR REPLACE` (src/database.ts): delete any conflicting row
and append the fresh one. -/
def replaceRow4 (store : List DbRow4) (f : GoogleFile) : List DbRow4 :=
  store.filter (fun r => r.id != f.id) ++ [rowOfFile f]

/-- The upsert loop of `updateDatabase`, one statement per file; a
`some i` oracle makes the i-th statement execution throw, leaving the
loop aborted inside the open transaction (`none`). -/
def applyUpserts : List DbRow4 → List GoogleFile → Option Nat → Option (List DbRow4)
  | store, [], _ => some store
  | store, f :: fs, none => applyUpserts (upsertRow4 store f) fs none
  | _, _ :: _, some 0 => none
  | store, f :: fs, some (i + 1) => applyUpserts (upsertRow4 store f) fs (some i)

/-- `updateDatabase(files)` of database/database.ts:
`BEGIN TRANSACTION` … upserts … `COMMIT`, with `ROLLBACK` restoring the
prior store when any statement fails; the boolean reports whether the
transaction committed (false = the method threw `DatabaseError`). -/
def updateDatabaseTx (store : List DbRow4) (files : List GoogleFile)
    (failAt : Option Nat) : List DbRow4 × Bool :=
  match applyUpserts store files failAt with
  | some s => (s, true)
  | none => (store, false)

/-- `deleteRemovedFiles(currentFileIds)` of database/database.ts: early
return (with a logged warning) on an empty id set, otherwise one
`DELETE FROM files WHERE id NOT IN (...)` statement; `delFails` injects
a statement failure, which leaves the store unchanged (single-statement
atomicity) and makes the method throw. -/
def deleteRemovedFiles (store : List DbRow4) (currentFileIds : List String)
    (delFails : Bool) : List DbRow4 × Bool :=
  if currentFileIds.isEmpty then (store, true)
  else if delFails then (store, false)
  else (store.filter (fun r => currentFileIds.contains r.id), true)

/-- `deleteRemovedFiles` of the older src/database.ts: no empty-set
guard; in SQLite `id NOT IN ()` is true of every row, so an empty id set
deletes all rows. -/
def deleteRemovedFilesOld (store : List DbRow4)
    (currentFileIds : List String) : List DbRow4 :=
  store.filter (fun r => currentFileIds.contains r.id)

/-- `RefreshResult` (src/database/models.ts). -/
structure RefreshResult where
  totalFiles : Nat
  newFiles : Nat
deriving Repr, DecidableEq

/-- `FolderDatabase.refresh` of database/database.ts from the point the
fetched `files` are in hand: read the existing id set, compute the
fetched and new id sets, upsert inside one transaction, then delete.
The second component is `some result` on success, `none` when the cycle
threw (after which the first component is the store that persists). -/
def refreshNew (pre : List DbRow4) (files : List GoogleFile)
    (failAt : Option Nat) (delFails : Bool) :
    List DbRow4 × Option RefreshResult :=
  let existingIds := jsSetList (pre.map DbRow4.id)
  let fetchedIds := jsSetList (files.map GoogleFile.id)
  let newIds := fetchedIds.filter (fun i => !existingIds.contains i)
  match updateDatabaseTx pre files failAt with
  | (s1, true) =>
    match deleteRemovedFiles s1 fetchedIds delFails with
    | (s2, true) => (s2, some ⟨fetchedIds.length, newIds.length⟩)
    | (s2, false) => (s2, none)
  | (s1, false) => (s1, none)

/-- `updateDatabase` of src/database.ts (`INSERT OR REPLACE`, success
path). -/
def updateDatabaseOld (store : List DbRow4) (files : List GoogleFile) :
    List DbRow4 :=
  files.foldl replaceRow4 store

/-- `FolderDatabase.load` of src/database.ts (success path) from the
point the fetched `files` are in hand: the returned counts are
recomputed from a second read of the store after the writes. -/
def loadOld (pre : List DbRow4) (files : List GoogleFile) :
    List DbRow4 × RefreshResult :=
  let existingIds := jsSetList (pre.map DbRow4.id)
  let fetchedIds := jsSetList (files.map GoogleFile.id)
  let s1 := updateDatabaseOld pre files
  let s2 := deleteRemovedFilesOld s1 fetchedIds
  let newIds := jsSetList (s2.map DbRow4.id)
  let newFileCount := (newIds.filter (fun i => !existingIds.contains i)).length
  (s2, ⟨newIds.length, newFileCount⟩)

theorem applyUpserts_none_of_fail :
    ∀ (files : List GoogleFile) (store : List DbRow4) (i : Nat),
      i < files.length → applyUpserts store files (some i) = none
  | [], _, i, h => by simp at h
  | f :: fs, store, 0, _ => rfl
  | f :: fs, store, i + 1, h =>
    applyUpserts_none_of_fail fs (upsertRow4 store f) i (by simpa using h)

theorem applyUpserts_none_oracle :
    ∀ (files : List GoogleFile) (store : List DbRow4),
      applyUpserts store files none = some (files.foldl upsertRow4 store)
  | [], _ => rfl
  | f :: fs, store => applyUpserts_none_oracle fs (upsertRow4 store f)

theorem jsSetList_ne_nil {l : List String} (h : l ≠ []) : jsSetList l ≠ [] := by
  cases l with
  | nil => exact absurd rfl h
  | cons x xs =>
    intro hc
    have : x ∈ jsSetList (x :: xs) := (mem_jsSetList _ x).mpr (List.mem_cons_self x xs)
    rw [hc] at this
    exact List.not_mem_nil x this

/-- C1 (amended): the upsert step alone is atomic — if any single upsert
fails, the transaction rolls back, the delete step never executes, and
the persisted store is left exactly in its pre-cycle state; but the
delete step runs as a separate statement after the upsert transaction
has committed, so a failing delete leaves the committed upserts in place
— the refresh cycle as a whole is not all-or-nothing. -/
theorem refresh_rollback_spec :
    (∀ (pre : List DbRow4) (files : List GoogleFile) (i : Nat) (delFails : Bool),
      i < files.length → refreshNew pre files (some i) delFails = (pre, none)) ∧
    (∀ (pre : List DbRow4) (files : List GoogleFile), files ≠ [] →
      refreshNew pre files none true = (files.foldl upsertRow4 pre, none)) := by
  constructor
  · intro pre files i delFails hi
    rw [refreshNew]
    rw [show updateDatabaseTx pre files (some i) = (pre, false) by
      rw [updateDatabaseTx, applyUpserts_none_of_fail files pre i hi]]
  · intro pre files hne
    rw [refreshNew]
    rw [show updateDatabaseTx pre files none = (files.foldl upsertRow4 pre, true) by
      rw [updateDatabaseTx, applyUpserts_none_oracle files pre]]
    dsimp only
    have hfetched : (jsSetList (files.map GoogleFile.id)).isEmpty = false := by
      rw [List.isEmpty_eq_false]
      exact jsSetList_ne_nil (by simpa using hne)
    rw [show deleteRemovedFiles (files.foldl upsertRow4 pre)
        (jsSetList (files.map GoogleFile.id)) true
        = (files.foldl upsertRow4 pre, false) by
      rw [deleteRemovedFiles, hfetched]
      simp]

/-- Witness for C1 (amended): a one-row upsert failure rolls the store
back to its pre-cycle state; a delete failure leaves the committed
upsert in place. -/
theorem refresh_rollback_spec_witness :
    refreshNew [⟨"a", "na", none, "wa"⟩] [⟨"f1", "n1", none, "w1"⟩]
        (some 0) false = ([⟨"a", "na", none, "wa"⟩], none) ∧
    refreshNew [] [⟨"f1", "n1", none, "w1"⟩] none true
      = ([⟨"f1", "n1", none, "w1"⟩].foldl upsertRow4 [], none) :=
  ⟨refresh_rollback_spec.1 _ _ 0 false (by decide),
   refresh_rollback_spec.2 [] [⟨"f1", "n1", none, "w1"⟩] (by simp)⟩

/-- C1 counterexample: with one fetched file and a failing delete
statement, refresh raises but the store is left in the post-upsert
state, not the pre-cycle state — the upsert and delete steps are not one
atomic transaction and the cycle is not all-or-nothing. -/
theorem refresh_not_atomic :
    (refreshNew [] [⟨"f1", "n1", none, "w1"⟩] none true).2 = none ∧
    (refreshNew [] [⟨"f1", "n1", none, "w1"⟩] none true).1 ≠ [] := by
  constructor
  · rfl
  · decide

/-- C3: on an empty fetched-id set the guarded `deleteRemovedFiles`
(database/database.ts) returns without deleting and the store survives,
but the unguarded src/database.ts variant executes
`DELETE ... WHERE id NOT IN ()` — vacuously true of every row — and
destructively empties the store. -/
theorem empty_fetch_divergence :
    deleteRemovedFiles [⟨"a", "na", none, "wa"⟩] [] false
      = ([⟨"a", "na", none, "wa"⟩], true) ∧
    deleteRemovedFilesOld [⟨"a", "na", none, "wa"⟩] [] = [] := by
  constructor
  · rfl
  · rfl

theorem mem_ids_replaceRow4 (s : List DbRow4) (f : GoogleFile) (x : String) :
    x ∈ (replaceRow4 s f).map DbRow4.id ↔ x ∈ s.map DbRow4.id ∨ x = f.id := by
  simp only [replaceRow4, List.map_append, List.mem_append]
  constructor
  · rintro (h | h)
    · left
      simp only [List.mem_map, List.mem_filter] at h
      obtain ⟨r, ⟨hr, _⟩, rfl⟩ := h
      exact List.mem_map_of_mem _ hr
    · right
      simpa [rowOfFile] using h
  · rintro (h | rfl)
    · by_cases hx : x = f.id
      · right; simp [rowOfFile, hx]
      · left
        simp only [List.mem_map] at h
        obtain ⟨r, hr, rfl⟩ := h
        refine List.mem_map_of_mem _ (List.mem_filter.mpr ⟨hr, ?_⟩)
        simpa using hx
    · right; simp [rowOfFile]

theorem mem_ids_updateOld :
    ∀ (files : List GoogleFile) (pre : List DbRow4) (x : String),
      x ∈ (updateDatabaseOld pre files).map DbRow4.id ↔
        x ∈ pre.map DbRow4.id ∨ x ∈ files.map GoogleFile.id
  | [], pre, x => by simp [updateDatabaseOld]
  | f :: fs, pre, x => by
    simp only [updateDatabaseOld, List.foldl_cons]
    rw [show List.foldl replaceRow4 (replaceRow4 pre f) fs
      = updateDatabaseOld (replaceRow4 pre f) fs from rfl]
    rw [mem_ids_updateOld fs (replaceRow4 pre f) x, mem_ids_replaceRow4]
    simp only [List.map_cons, List.mem_cons]
    tauto

theorem nodup_length_eq_of_mem_iff {l1 l2 : List String}
    (h1 : l1.Nodup) (h2 : l2.Nodup) (h : ∀ x, x ∈ l1 ↔ x ∈ l2) :
    l1.length = l2.length := by
  rw [← List.toFinset_card_of_nodup h1, ← List.toFinset_card_of_nodup h2]
  congr 1
  ext x
  simp only [List.mem_toFinset]
  exact h x

/-- C6: for every successful refresh cycle, the returned summary equals
`{totalFiles := |fetchedIds|, newFiles := |fetchedIds minus existingIds|}`
with `fetchedIds` the deduplicated fetched id set and `existingIds` the
stored id set read before any write of the cycle — directly for the
database/database.ts `refresh`, and also for the src/database.ts `load`,
which recomputes the counts from a second store read after its writes. -/
theorem syncResult_spec (pre : List DbRow4) (files : List GoogleFile) :
    (loadOld pre files).2 =
      ⟨(jsSetList (files.map GoogleFile.id)).length,
       ((jsSetList (files.map GoogleFile.id)).filter
          (fun i => !(jsSetList (pre.map DbRow4.id)).contains i)).length⟩ ∧
    (∀ (failAt : Option Nat) (delFails : Bool) (s : List DbRow4)
        (r : RefreshResult),
      refreshNew pre files failAt delFails = (s, some r) →
      r = ⟨(jsSetList (files.map GoogleFile.id)).length,
           ((jsSetList (files.map GoogleFile.id)).filter
              (fun i => !(jsSetList (pre.map DbRow4.id)).contains i)).length⟩) := by
  constructor
  · have hs2 : ∀ x,
        x ∈ ((deleteRemovedFilesOld (updateDatabaseOld pre files)
            (jsSetList (files.map GoogleFile.id))).map DbRow4.id) ↔
          x ∈ jsSetList (files.map GoogleFile.id) := by
      intro x
      constructor
      · intro hx
        simp only [deleteRemovedFilesOld, List.mem_map, List.mem_filter] at hx
        obtain ⟨r, ⟨_, hc⟩, rfl⟩ := hx
        exact (contains_iff _ _).mp hc
      · intro hxF
        have hxfiles : x ∈ files.map GoogleFile.id := (mem_jsSetList _ x).mp hxF
        have hxs1 : x ∈ (updateDatabaseOld pre files).map DbRow4.id :=
          (mem_ids_updateOld files pre x).mpr (Or.inr hxfiles)
        simp only [List.mem_map] at hxs1
        obtain ⟨r, hr, rfl⟩ := hxs1
        refine List.mem_map_of_mem _ ?_
        exact List.mem_filter.mpr ⟨hr, (contains_iff _ _).mpr hxF⟩
    have hmemN : ∀ x,
        x ∈ jsSetList ((deleteRemovedFilesOld (updateDatabaseOld pre files)
            (jsSetList (files.map GoogleFile.id))).map DbRow4.id) ↔
          x ∈ jsSetList (files.map GoogleFile.id) :=
      fun x => (mem_jsSetList _ x).trans (hs2 x)
    have hlen1 := nodup_length_eq_of_mem_iff (nodup_jsSetList _)
      (nodup_jsSetList (files.map GoogleFile.id)) hmemN
    have hlen2 := nodup_length_eq_of_mem_iff
      (List.Nodup.filter (fun i => !(jsSetList (pre.map DbRow4.id)).contains i)
        (nodup_jsSetList _))
      (List.Nodup.filter (fun i => !(jsSetList (pre.map DbRow4.id)).contains i)
        (nodup_jsSetList (files.map GoogleFile.id)))
      (by
        intro x
        simp only [List.mem_filter]
        rw [hmemN x])
    simp only [loadOld]
    rw [hlen1, hlen2]
  · intro failAt delFails s r hres
    rw [refreshNew] at hres
    rcases hup : updateDatabaseTx pre files failAt with ⟨s1, ok1⟩
    rw [hup] at hres
    cases ok1 with
    | false => simp at hres
    | true =>
      dsimp only at hres
      rcases hdel : deleteRemovedFiles s1
        (jsSetList (files.map GoogleFile.id)) delFails with ⟨s2, ok2⟩
      rw [hdel] at hres
      cases ok2 with
      | false => simp at hres
      | true =>
        dsimp only at hres
        rw [Prod.mk.injEq, Option.some.injEq] at hres
        exact hres.2.symm

/-- Witness for C6 at a store holding id `a` and a fetch of ids `a, b`. -/
theorem syncResult_spec_witness :
    (loadOld [⟨"a", "na", none, "wa"⟩]
        [⟨"a", "na2", none, "wa2"⟩, ⟨"b", "nb", none, "wb"⟩]).2 =
      ⟨(jsSetList ([⟨"a", "na2", none, "wa2"⟩,
          ⟨"b", "nb", none, "wb"⟩].map GoogleFile.id)).length,
       ((jsSetList ([⟨"a", "na2", none, "wa2"⟩,
          ⟨"b", "nb", none, "wb"⟩].map GoogleFile.id)).filter
          (fun i => !(jsSetList ([⟨"a", "na", none, "wa"⟩].map
            DbRow4.id)).contains i)).length⟩ ∧
    (⟨2, 1⟩ : RefreshResult) =
      ⟨(jsSetList ([⟨"a", "na2", none, "wa2"⟩,
          ⟨"b", "nb", none, "wb"⟩].map GoogleFile.id)).length,
       ((jsSetList ([⟨"a", "na2", none, "wa2"⟩,
          ⟨"b", "nb", none, "wb"⟩].map GoogleFile.id)).filter
          (fun i => !(jsSetList ([⟨"a", "na", none, "wa"⟩].map
            DbRow4.id)).contains i)).length⟩ :=
  ⟨(syncResult_spec _ _).1,
   (syncResult_spec [⟨"a", "na", none, "wa"⟩]
      [⟨"a", "na2", none, "wa2"⟩, ⟨"b", "nb", none, "wb"⟩]).2 none false
      [⟨"a", "na2", none, "wa2"⟩, ⟨"b", "nb", none, "wb"⟩] ⟨2, 1⟩ (by decide)⟩

/-! ## Reconciliation store: 5-column variant (`part_007` local-db)

The most evolved `FolderDatabase`: the `files` table carries a
`localPath` column owned by the download cache, and the cached
`insertOrUpdateStmt` preserves it across metadata updates. -/

/-- A row of the 5-column `files` table. -/
structure DbRow5 where
  id : String
  name : String
  parents : Option String
  webViewLink : String
  localPath : Option String
deriving Repr, DecidableEq

/-- The metadata update applied by the `ON CONFLICT(id) DO UPDATE`
clause: `name`, `parents`, `webViewLink` replaced, `localPath` kept. -/
def updateRow5 (f : GoogleFile) (r : DbRow5) : DbRow5 :=
  { r with name := f.name, parents := serializeParents f.parents,
           webViewLink := f.webViewLink }

/-- The cached `insertOrUpdateStmt`: `INSERT INTO files VALUES
(?, ?, ?, ?, COALESCE((SELECT localPath FROM files WHERE id = ?), NULL))
ON CONFLICT(id) DO UPDATE SET name, parents, webViewLink` — a fresh
insert starts with NULL `localPath` (the inner SELECT finds no row); a
conflicting insert updates the metadata fields in place only. -/
def upsertRow5 (store : List DbRow5) (f : GoogleFile) : List DbRow5 :=
  if store.any (fun r => r.id == f.id) then
    store.map (fun r => if r.id == f.id then updateRow5 f r else r)
  else
    store ++ [⟨f.id, f.name, serializeParents f.parents, f.webViewLink, none⟩]

/-- `refresh` of the part_007 `FolderDatabase` (success path) from the
point the fetched `files` are in hand. -/
def refreshP7 (pre : List DbRow5) (files : List GoogleFile) :
    List DbRow5 × RefreshResult :=
  let existingIds := jsSetList (pre.map DbRow5.id)
  let fetchedIds := jsSetList (files.map GoogleFile.id)
  let newIds := fetchedIds.filter (fun i => !existingIds.contains i)
  let s1 := files.foldl upsertRow5 pre
  let s2 := if fetchedIds.isEmpty then s1
            else s1.filter (fun r => fetchedIds.contains r.id)
  (s2, ⟨fetchedIds.length, newIds.length⟩)

/-- `SELECT ... FROM files WHERE id = ?` as a point lookup. -/
def findRow (store : List DbRow5) (i : String) : Option DbRow5 :=
  store.find? (fun r => r.id == i)

/-- The last fetched record bearing a given id (with id-unique fetches,
the unique one): the record whose metadata the upsert loop leaves in the
row. -/
def lastFileFor : List GoogleFile → String → Option GoogleFile
  | [], _ => none
  | f :: fs, x =>
    match lastFileFor fs x with
    | some g => some g
    | none => if f.id == x then some f else none

theorem findRow_map_update (fid : String) (g : DbRow5 → DbRow5)
    (hg : ∀ r, (g r).id = r.id) :
    ∀ (store : List DbRow5) (x : String),
      findRow (store.map (fun r => if r.id == fid then g r else r)) x =
        (findRow store x).map (fun r => if r.id == fid then g r else r)
  | [], _ => rfl
  | r :: t, x => by
    simp only [findRow, List.map_cons, List.find?]
    by_cases hrx : r.id == x
    · have hrx2 : ((if r.id == fid then g r else r).id == x) = true := by
        by_cases hrf : r.id == fid
        · simp [hrf, hg, hrx]
        · simp [hrf, hrx]
      rw [hrx2, hrx]
      rfl
    · have hrx2 : ((if r.id == fid then g r else r).id == x) = false := by
        by_cases hrf : r.id == fid
        · simpa [hrf, hg] using hrx
        · simpa [hrf] using hrx
      rw [hrx2, eq_false_of_ne_true hrx]
      exact findRow_map_update fid g hg t x

theorem findRow_append (s t : List DbRow5) (x : String) :
    findRow (s ++ t) x =
      match findRow s x with
      | some r => some r
      | none => findRow t x := by
  induction s with
  | nil => rfl
  | cons r s ih =>
    simp only [findRow, List.cons_append, List.find?] at ih ⊢
    by_cases hrx : r.id == x
    · rw [hrx]
    · rw [eq_false_of_ne_true hrx]
      exact ih

theorem any_id_iff (store : List DbRow5) (x : String) :
    store.any (fun r => r.id == x) = true ↔ ∃ r ∈ store, r.id = x := by
  rw [List.any_eq_true]
  constructor
  · rintro ⟨r, hr, hx⟩
    exact ⟨r, hr, by simpa using hx⟩
  · rintro ⟨r, hr, hx⟩
    exact ⟨r, hr, by simpa using hx⟩

theorem findRow_upsert_self (s : List DbRow5) (f : GoogleFile) :
    findRow (upsertRow5 s f) f.id =
      some ⟨f.id, f.name, serializeParents f.parents, f.webViewLink,
        (findRow s f.id).bind DbRow5.localPath⟩ := by
  rw [upsertRow5]
  by_cases hany : s.any (fun r => r.id == f.id) = true
  · rw [if_pos hany]
    rw [findRow_map_update f.id (updateRow5 f) (fun r => rfl) s f.id]
    obtain ⟨r0, hr0, hr0id⟩ := (any_id_iff s f.id).mp hany
    have hfound : (findRow s f.id).isSome = true := by
      rw [findRow, List.find?_isSome]
      exact ⟨r0, hr0, by simpa using hr0id⟩
    obtain ⟨r1, hr1⟩ := Option.isSome_iff_exists.mp hfound
    have hr1id : r1.id = f.id := by
      have := List.find?_some hr1
      simpa using this
    rw [hr1]
    simp only [Option.map_some', Option.some_bind]
    rw [if_pos (by simpa using hr1id)]
    simp [updateRow5, hr1id]
  · rw [if_neg hany]
    rw [findRow_append]
    have hnone : findRow s f.id = none := by
      rw [findRow, List.find?_eq_none]
      intro r hr
      intro hc
      exact hany ((any_id_iff s f.id).mpr ⟨r, hr, by simpa using hc⟩)
    rw [hnone]
    simp [findRow, List.find?]

theorem findRow_upsert_other (s : List DbRow5) (f : GoogleFile) (x : String)
    (hx : x ≠ f.id) :
    findRow (upsertRow5 s f) x = findRow s x := by
  rw [upsertRow5]
  by_cases hany : s.any (fun r => r.id == f.id) = true
  · rw [if_pos hany]
    rw [findRow_map_update f.id (updateRow5 f) (fun r => rfl) s x]
    cases hfr : findRow s x with
    | none => rfl
    | some r =>
      have hrid : r.id = x := by simpa using List.find?_some hfr
      simp only [Option.map_some']
      rw [if_neg (by simp [hrid, hx])]
  · rw [if_neg hany]
    rw [findRow_append]
    cases hfr : findRow s x with
    | some r => rfl
    | none =>
      simp only [findRow, List.find?]
      rw [show ((⟨f.id, f.name, serializeParents f.parents, f.webViewLink,
        none⟩ : DbRow5).id == x) = false by simpa using fun h => hx h.symm]

theorem findRow_foldl_upsert :
    ∀ (files : List GoogleFile) (pre : List DbRow5) (x : String),
      findRow (files.foldl upsertRow5 pre) x =
        match lastFileFor files x with
        | some f => some ⟨x, f.name, serializeParents f.parents, f.webViewLink,
            (findRow pre x).bind DbRow5.localPath⟩
        | none => findRow pre x
  | [], pre, x => by simp [lastFileFor]
  | f :: fs, pre, x => by
    simp only [List.foldl_cons, lastFileFor]
    rw [findRow_foldl_upsert fs (upsertRow5 pre f) x]
    have hbind : (findRow (upsertRow5 pre f) x).bind DbRow5.localPath =
        (findRow pre x).bind DbRow5.localPath := by
      by_cases hxf : x = f.id
      · subst hxf
        rw [findRow_upsert_self]
        rfl
      · rw [findRow_upsert_other pre f x hxf]
    cases hlast : lastFileFor fs x with
    | some g =>
      simp only
      rw [hbind]
    | none =>
      simp only
      by_cases hxf : (f.id == x) = true
      · have hxf2 : x = f.id := by simpa using (eq_comm.mp (by simpa using hxf))
        rw [if_pos hxf]
        subst hxf2
        rw [findRow_upsert_self]
      · rw [if_neg (by simpa using hxf)]
        rw [findRow_upsert_other pre f x (by simpa using fun h => hxf (by simp [h]))]

theorem lastFileFor_eq_none (files : List GoogleFile) (x : String)
    (hx : x ∉ files.map GoogleFile.id) : lastFileFor files x = none := by
  induction files with
  | nil => rfl
  | cons f fs ih =>
    simp only [List.map_cons, List.mem_cons] at hx
    push_neg at hx
    rw [lastFileFor, ih hx.2]
    have hfx : (f.id == x) = false := by simpa using fun h => hx.1 h.symm
    simp [hfx]

theorem lastFileFor_unique (files : List GoogleFile) (f : GoogleFile)
    (hnd : (files.map GoogleFile.id).Nodup) (hf : f ∈ files) :
    lastFileFor files f.id = some f := by
  induction files with
  | nil => simp at hf
  | cons g gs ih =>
    simp only [List.map_cons, List.nodup_cons] at hnd
    rcases List.mem_cons.mp hf with rfl | hfg
    · rw [lastFileFor, lastFileFor_eq_none gs f.id hnd.1]
      simp
    · rw [lastFileFor, ih hnd.2 hfg]

theorem findRow_of_mem_nodup (pre : List DbRow5) (r : DbRow5)
    (hnd : (pre.map DbRow5.id).Nodup) (hr : r ∈ pre) :
    findRow pre r.id = some r := by
  induction pre with
  | nil => simp at hr
  | cons q qs ih =>
    simp only [List.map_cons, List.nodup_cons] at hnd
    rcases List.mem_cons.mp hr with rfl | hrq
    · simp [findRow, List.find?]
    · rw [findRow, List.find?]
      have hq : (q.id == r.id) = false := by
        have hmem : r.id ∈ qs.map DbRow5.id := List.mem_map_of_mem _ hrq
        have hne : q.id ≠ r.id := fun h => hnd.1 (by rw [h]; exact hmem)
        simpa using hne
      rw [hq]
      exact ih hnd.2 hrq

theorem findRow_mem {store : List DbRow5} {x : String} {r : DbRow5}
    (h : findRow store x = some r) : r ∈ store ∧ r.id = x :=
  ⟨List.mem_of_find?_eq_some h, by simpa using List.find?_some h⟩

theorem mem_ids_upsert5 (s : List DbRow5) (f : GoogleFile) (x : String) :
    x ∈ (upsertRow5 s f).map DbRow5.id ↔ x ∈ s.map DbRow5.id ∨ x = f.id := by
  rw [upsertRow5]
  by_cases hany : s.any (fun r => r.id == f.id) = true
  · rw [if_pos hany]
    obtain ⟨r0, hr0, hid0⟩ := (any_id_iff s f.id).mp hany
    have hids : (s.map (fun r => if r.id == f.id then updateRow5 f r else r)).map
        DbRow5.id = s.map DbRow5.id := by
      rw [List.map_map]
      apply List.map_congr_left
      intro r _
      by_cases h : r.id = f.id <;> simp [h, updateRow5]
    rw [hids]
    constructor
    · exact Or.inl
    · rintro (h | rfl)
      · exact h
      · rw [← hid0]
        exact List.mem_map_of_mem _ hr0
  · rw [if_neg hany]
    simp [List.map_append, eq_comm]

theorem mem_ids_foldl_upsert5 :
    ∀ (files : List GoogleFile) (pre : List DbRow5) (x : String),
      x ∈ (files.foldl upsertRow5 pre).map DbRow5.id ↔
        x ∈ pre.map DbRow5.id ∨ x ∈ files.map GoogleFile.id
  | [], pre, x => by simp
  | f :: fs, pre, x => by
    simp only [List.foldl_cons, List.map_cons, List.mem_cons]
    rw [mem_ids_foldl_upsert5 fs (upsertRow5 pre f) x, mem_ids_upsert5]
    tauto

/-- C2: for every successful refresh with a non-empty fetched set whose
ids are distinct, over a store with unique ids, the post-refresh stored
id set equals exactly the fetched id set (absent ids deleted, new ids
inserted), and every row whose id was already stored is present with its
`name`, serialized `parents` and `webViewLink` replaced by the freshly
fetched values and its `localPath` unchanged. -/
theorem refresh_diff_spec (pre : List DbRow5) (files : List GoogleFile)
    (hne : files ≠ [])
    (hpre : (pre.map DbRow5.id).Nodup)
    (hfiles : (files.map GoogleFile.id).Nodup) :
    (∀ x, x ∈ (refreshP7 pre files).1.map DbRow5.id ↔
      x ∈ files.map GoogleFile.id) ∧
    (∀ r ∈ pre, ∀ f ∈ files, r.id = f.id →
      (⟨f.id, f.name, serializeParents f.parents, f.webViewLink,
        r.localPath⟩ : DbRow5) ∈ (refreshP7 pre files).1) := by
  have hfetchne : (jsSetList (files.map GoogleFile.id)).isEmpty = false := by
    rw [List.isEmpty_eq_false]
    exact jsSetList_ne_nil (by simpa using hne)
  have hs2 : (refreshP7 pre files).1 =
      (files.foldl upsertRow5 pre).filter
        (fun r => (jsSetList (files.map GoogleFile.id)).contains r.id) := by
    simp [refreshP7, hfetchne]
  constructor
  · intro x
    rw [hs2]
    constructor
    · intro hx
      simp only [List.mem_map, List.mem_filter] at hx
      obtain ⟨r, ⟨_, hc⟩, rfl⟩ := hx
      exact (mem_jsSetList _ _).mp ((contains_iff _ _).mp hc)
    · intro hx
      have hx1 : x ∈ (files.foldl upsertRow5 pre).map DbRow5.id :=
        (mem_ids_foldl_upsert5 files pre x).mpr (Or.inr hx)
      simp only [List.mem_map] at hx1
      obtain ⟨r, hr, rfl⟩ := hx1
      exact List.mem_map_of_mem _ (List.mem_filter.mpr ⟨hr,
        (contains_iff _ _).mpr ((mem_jsSetList _ _).mpr hx)⟩)
  · intro r hr f hf hid
    have hlast : lastFileFor files f.id = some f :=
      lastFileFor_unique files f hfiles hf
    have hfindpre : findRow pre f.id = some r := by
      rw [← hid]
      exact findRow_of_mem_nodup pre r hpre hr
    have hfind1 : findRow (files.foldl upsertRow5 pre) f.id =
        some ⟨f.id, f.name, serializeParents f.parents, f.webViewLink,
          r.localPath⟩ := by
      rw [findRow_foldl_upsert files pre f.id, hlast]
      simp only
      rw [hfindpre]
      rfl
    obtain ⟨hmem, _⟩ := findRow_mem hfind1
    rw [hs2]
    refine List.mem_filter.mpr ⟨hmem, ?_⟩
    exact (contains_iff _ _).mpr
      ((mem_jsSetList _ _).mpr (List.mem_map_of_mem _ hf))

/-- Witness for C2: a one-row store refreshed with an update of that row
plus one new file; the updated row keeps its `localPath`. -/
theorem refresh_diff_spec_witness :
    (("b" ∈ (refreshP7 [⟨"a", "old", none, "w0", some "/tmp/a.pdf"⟩]
        [⟨"a", "new", some ["p"], "w1"⟩,
         ⟨"b", "nb", none, "wb"⟩]).1.map DbRow5.id) ↔
      "b" ∈ ([⟨"a", "new", some ["p"], "w1"⟩,
         ⟨"b", "nb", none, "wb"⟩].map GoogleFile.id)) ∧
    (⟨"a", "new", serializeParents (some ["p"]), "w1",
        some "/tmp/a.pdf"⟩ : DbRow5) ∈
      (refreshP7 [⟨"a", "old", none, "w0", some "/tmp/a.pdf"⟩]
        [⟨"a", "new", some ["p"], "w1"⟩, ⟨"b", "nb", none, "wb"⟩]).1 :=
  ⟨(refresh_diff_spec [⟨"a", "old", none, "w0", some "/tmp/a.pdf"⟩]
      [⟨"a", "new", some ["p"], "w1"⟩, ⟨"b", "nb", none, "wb"⟩]
      (by simp) (by decide) (by decide)).1 "b",
   (refresh_diff_spec [⟨"a", "old", none, "w0", some "/tmp/a.pdf"⟩]
      [⟨"a", "new", some ["p"], "w1"⟩, ⟨"b", "nb", none, "wb"⟩]
      (by simp) (by decide) (by decide)).2
      ⟨"a", "old", none, "w0", some "/tmp/a.pdf"⟩ (by decide)
      ⟨"a", "new", some ["p"], "w1"⟩ (by decide) rfl⟩

/-! ## Download cache (`DriveFileManager.downloadFile` over the part_007 store) -/

/-- `getLocalFilePath(fileLink)`: extract the id, then
`SELECT localPath FROM files WHERE id = ?` (with the
`result?.localPath || null` coalescing of the source). -/
def getLocalFilePath (store : List DbRow5) (fileLink : String) : Option String :=
  match extractFileIdFromLink fileLink with
  | none => none
  | some fid => (findRow store fid).bind DbRow5.localPath

/-- `fileExists(fileLink)`: extract the id, then
`SELECT 1 FROM files WHERE id = ? LIMIT 1`. -/
def fileExistsDb (store : List DbRow5) (fileLink : String) : Bool :=
  match extractFileIdFromLink fileLink with
  | none => false
  | some fid => store.any (fun r => r.id == fid)

/-- `updateLocalFilePath(fileLink, localPath)`:
`UPDATE files SET localPath = ? WHERE id = ?`.  (`downloadFile` reaches
it only with an extractable id; the throwing `none` branch leaves the
store unchanged here.) -/
def updateLocalFilePath (store : List DbRow5) (fileLink : String)
    (localPath : String) : List DbRow5 :=
  match extractFileIdFromLink fileLink with
  | none => store
  | some fid => store.map (fun r =>
      if r.id == fid then { r with localPath := some localPath } else r)

/-- The store and file-system state the download cache observes. -/
structure SysState where
  store : List DbRow5
  disk : List String
deriving Repr, DecidableEq

/-- The deterministic destination of `downloadFileFromGoogleDrive`:
`path.join(downloadsPath, fileId + '.pdf')`. -/
def downloadDest (downloadsPath fid : String) : String :=
  downloadsPath ++ "/" ++ fid ++ ".pdf"

/-- The remote branch of `downloadFile` (success path): require the id
to be in the reconciled set, stream to the deterministic destination,
then register the path with `updateLocalFilePath`; the boolean records
that the transport ran, `none` models the thrown errors. -/
def remoteDownload (downloadsPath fileLink : String) (s : SysState) :
    Option (String × SysState × Bool) :=
  if fileExistsDb s.store fileLink then
    match extractFileIdFromLink fileLink with
    | some fid =>
      some (downloadDest downloadsPath fid,
        ⟨updateLocalFilePath s.store fileLink (downloadDest downloadsPath fid),
         if s.disk.contains (downloadDest downloadsPath fid) then s.disk
         else s.disk ++ [downloadDest downloadsPath fid]⟩, true)
    | none => none
  else none

/-- `DriveFileManager.downloadFile(fileLink)`: return the cached path
when it is registered and still present on disk, otherwise download
remotely. -/
def downloadFile (downloadsPath fileLink : String) (s : SysState) :
    Option (String × SysState × Bool) :=
  match getLocalFilePath s.store fileLink with
  | some p =>
    if s.disk.contains p then some (p, s, false)
    else remoteDownload downloadsPath fileLink s
  | none => remoteDownload downloadsPath fileLink s

theorem updateLocalFilePath_ids (store : List DbRow5) (link p : String) :
    (updateLocalFilePath store link p).map DbRow5.id = store.map DbRow5.id := by
  rw [updateLocalFilePath]
  cases extractFileIdFromLink link with
  | none => rfl
  | some fid =>
    dsimp only
    rw [List.map_map]
    apply List.map_congr_left
    intro r _
    by_cases h : r.id = fid <;> simp [h]

theorem any_id_of_ids_eq {s t : List DbRow5} (x : String)
    (h : s.map DbRow5.id = t.map DbRow5.id) :
    s.any (fun r => r.id == x) = t.any (fun r => r.id == x) := by
  cases hs : s.any (fun r => r.id == x) with
  | true =>
    obtain ⟨r, hr, hrx⟩ := (any_id_iff s x).mp hs
    have hx : x ∈ t.map DbRow5.id := by
      rw [← h, ← hrx]
      exact List.mem_map_of_mem _ hr
    simp only [List.mem_map] at hx
    obtain ⟨q, hq, hqx⟩ := hx
    exact ((any_id_iff t x).mpr ⟨q, hq, hqx⟩).symm
  | false =>
    cases ht : t.any (fun r => r.id == x) with
    | false => rfl
    | true =>
      obtain ⟨r, hr, hrx⟩ := (any_id_iff t x).mp ht
      have hx : x ∈ s.map DbRow5.id := by
        rw [h, ← hrx]
        exact List.mem_map_of_mem _ hr
      simp only [List.mem_map] at hx
      obtain ⟨q, hq, hqx⟩ := hx
      rw [(any_id_iff s x).mpr ⟨q, hq, hqx⟩] at hs
      cases hs

/-- C7: after a successful transport download of the file with id `X`
to path `P`, a subsequent `downloadFile` call for any link resolving to
the same id returns `P` without invoking the transport while `P` is
still on disk (which the first call guarantees); if `P` has been deleted
externally, the next call performs the remote download again, to the
same deterministic path. -/
theorem download_cache_spec (downloadsPath link link2 X P : String)
    (s s1 : SysState) (hdisk : s.disk.Nodup)
    (hX : extractFileIdFromLink link = some X)
    (hX2 : extractFileIdFromLink link2 = some X)
    (h1 : downloadFile downloadsPath link s = some (P, s1, true)) :
    downloadFile downloadsPath link2 s1 = some (P, s1, false) ∧
    ∃ s2, downloadFile downloadsPath link2 ⟨s1.store, s1.disk.erase P⟩ =
      some (P, s2, true) := by
  have hrem : remoteDownload downloadsPath link s = some (P, s1, true) := by
    rw [downloadFile] at h1
    cases hglp : getLocalFilePath s.store link with
    | none => rw [hglp] at h1; exact h1
    | some q =>
      rw [hglp] at h1
      dsimp only at h1
      by_cases hq : s.disk.contains q = true
      · rw [if_pos hq] at h1
        exact absurd h1 (by simp)
      · rw [if_neg hq] at h1
        exact h1
  rw [remoteDownload, hX] at hrem
  by_cases hex : fileExistsDb s.store link = true
  case neg =>
    rw [if_neg hex] at hrem
    exact absurd hrem (by simp)
  rw [if_pos hex] at hrem
  dsimp only at hrem
  rw [Option.some.injEq, Prod.mk.injEq, Prod.mk.injEq] at hrem
  obtain ⟨hPeq, hs1eq, -⟩ := hrem
  rw [fileExistsDb, hX] at hex
  dsimp only at hex
  obtain ⟨r0, hr0⟩ : ∃ r, findRow s.store X = some r := by
    have hsome : (findRow s.store X).isSome = true := by
      rw [findRow, List.find?_isSome]
      obtain ⟨r, hr, hrx⟩ := (any_id_iff s.store X).mp hex
      exact ⟨r, hr, by simpa using hrx⟩
    exact Option.isSome_iff_exists.mp hsome
  have hstoreU : s1.store =
      s.store.map (fun r => if r.id == X then { r with localPath := some P } else r) := by
    rw [← hs1eq]
    dsimp only
    rw [updateLocalFilePath, hX, ← hPeq]
  have hfind1 : findRow s1.store X =
      some { r0 with localPath := some P } := by
    rw [hstoreU,
      findRow_map_update X (fun r => { r with localPath := some P }) (fun r => rfl)
        s.store X,
      hr0]
    have hr0x : r0.id = X := by simpa using List.find?_some hr0
    simp [hr0x]
  have hglp1 : getLocalFilePath s1.store link2 = some P := by
    rw [getLocalFilePath, hX2]
    dsimp only
    rw [hfind1]
    rfl
  have hPdisk : s1.disk.contains P = true := by
    rw [← hs1eq]
    dsimp only
    rw [← hPeq]
    by_cases hc : s.disk.contains (downloadDest downloadsPath X) = true
    · rw [if_pos hc]
      exact hc
    · rw [if_neg hc]
      rw [contains_iff]
      simp
  have hdisk1 : s1.disk.Nodup := by
    rw [← hs1eq]
    dsimp only
    by_cases hc : s.disk.contains (downloadDest downloadsPath X) = true
    · rw [if_pos hc]
      exact hdisk
    · rw [if_neg hc]
      have hnm : downloadDest downloadsPath X ∉ s.disk :=
        fun hm => hc ((contains_iff _ _).mpr hm)
      simp [List.nodup_append, hdisk, hnm]
  have hex1 : fileExistsDb s1.store link2 = true := by
    rw [fileExistsDb, hX2]
    dsimp only
    rw [hstoreU]
    rw [any_id_of_ids_eq X (s := s.store.map (fun r =>
      if r.id == X then { r with localPath := some P } else r)) (t := s.store) ?hids]
    · exact hex
    case hids =>
      have := updateLocalFilePath_ids s.store link P
      rw [updateLocalFilePath, hX] at this
      exact this
  constructor
  · rw [downloadFile, hglp1]
    dsimp only
    rw [if_pos hPdisk]
  · refine ⟨⟨updateLocalFilePath s1.store link2 (downloadDest downloadsPath X),
      (s1.disk.erase P) ++ [downloadDest downloadsPath X]⟩, ?_⟩
    have hglp2 : getLocalFilePath
        (SysState.mk s1.store (s1.disk.erase P)).store link2 = some P := hglp1
    rw [downloadFile, hglp2]
    dsimp only
    have hnm : P ∉ s1.disk.erase P := by
      intro hm
      rcases (List.Nodup.mem_erase_iff hdisk1).mp hm with ⟨hne, -⟩
      exact hne rfl
    rw [if_neg (by
      intro hc
      exact hnm ((contains_iff _ _).mp hc))]
    rw [remoteDownload, hX2]
    dsimp only
    rw [if_pos hex1]
    rw [Option.some.injEq, Prod.mk.injEq, Prod.mk.injEq]
    refine ⟨hPeq, ?_, rfl⟩
    rw [SysState.mk.injEq]
    refine ⟨rfl, ?_⟩
    rw [if_neg (by
      intro hc
      rw [hPeq] at hc
      exact hnm ((contains_iff _ _).mp hc))]

/-- Witness for C7 at a concrete 25-character file id. -/
theorem download_cache_spec_witness :
    downloadFile "dl" "AAAAAAAAAAAAAAAAAAAAAAAAA"
        ⟨[⟨"AAAAAAAAAAAAAAAAAAAAAAAAA", "n", none, "w",
            some "dl/AAAAAAAAAAAAAAAAAAAAAAAAA.pdf"⟩],
          ["dl/AAAAAAAAAAAAAAAAAAAAAAAAA.pdf"]⟩ =
      some ("dl/AAAAAAAAAAAAAAAAAAAAAAAAA.pdf",
        ⟨[⟨"AAAAAAAAAAAAAAAAAAAAAAAAA", "n", none, "w",
            some "dl/AAAAAAAAAAAAAAAAAAAAAAAAA.pdf"⟩],
          ["dl/AAAAAAAAAAAAAAAAAAAAAAAAA.pdf"]⟩, false) ∧
    ∃ s2, downloadFile "dl" "AAAAAAAAAAAAAAAAAAAAAAAAA"
        ⟨[⟨"AAAAAAAAAAAAAAAAAAAAAAAAA", "n", none, "w",
            some "dl/AAAAAAAAAAAAAAAAAAAAAAAAA.pdf"⟩],
          (["dl/AAAAAAAAAAAAAAAAAAAAAAAAA.pdf"]).erase
            "dl/AAAAAAAAAAAAAAAAAAAAAAAAA.pdf"⟩ =
      some ("dl/AAAAAAAAAAAAAAAAAAAAAAAAA.pdf", s2, true) :=
  download_cache_spec "dl" "AAAAAAAAAAAAAAAAAAAAAAAAA"
    "AAAAAAAAAAAAAAAAAAAAAAAAA" "AAAAAAAAAAAAAAAAAAAAAAAAA"
    "dl/AAAAAAAAAAAAAAAAAAAAAAAAA.pdf"
    ⟨[⟨"AAAAAAAAAAAAAAAAAAAAAAAAA", "n", none, "w", none⟩], []⟩
    ⟨[⟨"AAAAAAAAAAAAAAAAAAAAAAAAA", "n", none, "w",
        some "dl/AAAAAAAAAAAAAAAAAAAAAAAAA.pdf"⟩],
      ["dl/AAAAAAAAAAAAAAAAAAAAAAAAA.pdf"]⟩
    (by decide) (by decide) (by decide) (by decide)

/-! ## `search` and SQLite `LIKE` (part_007 `FolderDatabase.search`)

The search escapes the query with the quote-doubling
`escapeSingleQuotes`, wraps it in `%`, and binds it as the parameter of
`SELECT * FROM files WHERE name LIKE ?`.  SQLite `LIKE` is modelled with
its ASCII case-insensitivity, `%`/`_` wildcards, and no ESCAPE clause
(a backslash is an ordinary character; the doubled quote is NOT undone,
because the pattern is a bound parameter, not a SQL literal). -/

def percentChar : Char := Char.ofNat 37

def underscoreChar : Char := Char.ofNat 95

/-- Disjunction of `f` over all suffixes of the scanned text: the
backtracking performed for a `%` wildcard. -/
def likeTail (f : List Char → Bool) : List Char → Bool
  | [] => f []
  | c :: s => f (c :: s) || likeTail f s

/-- SQLite `LIKE` pattern matching. -/
def likeMatch : List Char → List Char → Bool
  | [], s => s.isEmpty
  | p :: ps, s =>
    if p == percentChar then likeTail (likeMatch ps) s
    else
      match s with
      | [] => false
      | c :: s2 =>
        if p == underscoreChar then likeMatch ps s2
        else (p.toLower == c.toLower) && likeMatch ps s2

/-- `search(query)` of the part_007 `FolderDatabase`: escape the query,
wrap it in `%`, keep the rows whose `name` matches the LIKE pattern
(the JSON re-parse of `parents` on the returned rows changes only their
in-memory representation, not which rows are returned). -/
def search (store : List DbRow5) (query : String) : List DbRow5 :=
  let escapedQuery := UtilsIndex.escapeSingleQuotes query
  let queryString := "%" ++ escapedQuery ++ "%"
  store.filter (fun r => likeMatch queryString.data r.name.data)

/-- Case-insensitive "starts with" on character lists (haystack first). -/
def startsWithCI : List Char → List Char → Bool
  | _, [] => true
  | [], _ :: _ => false
  | c :: s, q :: qs => (q.toLower == c.toLower) && startsWithCI s qs

/-- Case-insensitive substring occurrence (haystack first). -/
def substrCI : List Char → List Char → Bool
  | [], q => startsWithCI [] q
  | c :: s, q => startsWithCI (c :: s) q || substrCI s q

/-- No LIKE wildcard occurs in the character list. -/
def noWildcards (q : List Char) : Bool :=
  q.all (fun ch => !(ch == percentChar) && !(ch == underscoreChar))

theorem likeTail_congr (f g : List Char → Bool) (h : ∀ s, f s = g s) :
    ∀ s, likeTail f s = likeTail g s
  | [] => h []
  | c :: s => by rw [likeTail, likeTail, h (c :: s), likeTail_congr f g h s]

theorem likeMatch_append_percent (q : List Char) (hq : noWildcards q = true) :
    ∀ s, likeMatch (q ++ [percentChar]) s = startsWithCI s q := by
  induction q with
  | nil =>
    have hall : ∀ s, likeMatch [percentChar] s = true := by
      intro s
      induction s with
      | nil => rfl
      | cons c s2 ih =>
        rw [show likeMatch [percentChar] (c :: s2)
          = likeTail (likeMatch []) (c :: s2) by
            simp only [likeMatch]
            rw [if_pos (by simp)]]
        rw [likeTail]
        rw [show likeTail (likeMatch []) s2 = likeMatch [percentChar] s2 by
          simp only [likeMatch]
          rw [if_pos (by simp)]]
        simp [ih]
    intro s
    rw [List.nil_append, hall s]
    cases s <;> rfl
  | cons q0 qs ih =>
    simp only [noWildcards, List.all_cons, Bool.and_eq_true,
      Bool.not_eq_eq_eq_not, Bool.not_true] at hq
    intro s
    rw [List.cons_append]
    simp only [likeMatch]
    rw [if_neg (by simp [hq.1.1])]
    cases s with
    | nil => rfl
    | cons c s2 =>
      dsimp only
      rw [if_neg (by simp [hq.1.2])]
      rw [ih (by simp [noWildcards, hq.2]) s2]
      rfl

theorem likeTail_startsWith (q : List Char) :
    ∀ s, likeTail (fun s2 => startsWithCI s2 q) s = substrCI s q
  | [] => rfl
  | c :: s => by
    rw [likeTail, substrCI, likeTail_startsWith q s]

theorem likeMatch_substr (q : List Char) (hq : noWildcards q = true)
    (s : List Char) :
    likeMatch (percentChar :: (q ++ [percentChar])) s = substrCI s q := by
  simp only [likeMatch]
  rw [if_pos (by simp)]
  rw [likeTail_congr _ _ (likeMatch_append_percent q hq) s]
  exact likeTail_startsWith q s

theorem mem_replaceQuotesDoubleStyle (l : List Char) (ch : Char)
    (h : ch ∈ replaceQuotesDoubleStyle l) : ch ∈ l := by
  induction l with
  | nil => exact absurd h (List.not_mem_nil ch)
  | cons a t ih =>
    simp only [replaceQuotesDoubleStyle, List.foldr_cons] at h
    by_cases ha : a == quoteChar
    · rw [if_pos ha] at h
      have haq : a = quoteChar := by simpa using ha
      subst haq
      rcases List.mem_cons.mp h with rfl | h
      · exact List.mem_cons_self _ _
      · rcases List.mem_cons.mp h with rfl | h
        · exact List.mem_cons_self _ _
        · exact List.mem_cons_of_mem _ (ih h)
    · rw [if_neg ha] at h
      rcases List.mem_cons.mp h with rfl | h
      · exact List.mem_cons_self _ _
      · exact List.mem_cons_of_mem _ (ih h)

theorem noWildcards_escape (query : String)
    (hq : noWildcards query.data = true) :
    noWildcards (UtilsIndex.escapeSingleQuotes query).data = true := by
  rw [noWildcards, List.all_eq_true] at hq ⊢
  intro ch hch
  exact hq ch (mem_replaceQuotesDoubleStyle query.data ch hch)

/-- C9 (amended): for every store and every wildcard-free query string,
`search` is total (it raises no error, the parameterized LIKE causes no
injection) and returns exactly the rows whose `name` contains the
ESCAPED query — every single quote doubled — as a case-insensitive
substring; hence for a query containing a quote the matched substring is
the doubled form, not the literal query. -/
theorem search_matches_escaped (store : List DbRow5) (query : String)
    (hq : noWildcards query.data = true) :
    ∀ r, r ∈ search store query ↔
      r ∈ store ∧
        substrCI r.name.data (UtilsIndex.escapeSingleQuotes query).data = true := by
  intro r
  simp only [search, List.mem_filter]
  have hdata : ("%" ++ UtilsIndex.escapeSingleQuotes query ++ "%").data =
      percentChar :: ((UtilsIndex.escapeSingleQuotes query).data ++ [percentChar]) := by
    simp [String.data_append]
    rfl
  rw [hdata, likeMatch_substr _ (noWildcards_escape query hq) r.name.data]

/-- The name and query of the C9 counterexample: `o'b`. -/
def obName : String := String.mk ['o', quoteChar, 'b']

/-- Witness for C9 (amended): a name containing the doubled-quote form
of the query is matched. -/
theorem search_matches_escaped_witness :
    (⟨"id1", String.mk ['o', quoteChar, quoteChar, 'b'], none, "w", none⟩ : DbRow5) ∈
      search [⟨"id1", String.mk ['o', quoteChar, quoteChar, 'b'], none, "w", none⟩]
        obName ↔
    (⟨"id1", String.mk ['o', quoteChar, quoteChar, 'b'], none, "w", none⟩ : DbRow5) ∈
      [(⟨"id1", String.mk ['o', quoteChar, quoteChar, 'b'], none, "w", none⟩ : DbRow5)] ∧
      substrCI (String.mk ['o', quoteChar, quoteChar, 'b']).data
        (UtilsIndex.escapeSingleQuotes obName).data = true :=
  search_matches_escaped
    [⟨"id1", String.mk ['o', quoteChar, quoteChar, 'b'], none, "w", none⟩]
    obName (by decide)
    ⟨"id1", String.mk ['o', quoteChar, quoteChar, 'b'], none, "w", none⟩

/-- C9 counterexample: the stored name `o'b` contains the query `o'b`
literally (case-insensitively), yet `search` returns no row — the
escaping doubles the quote, and the bound LIKE parameter then requires
the doubled form, so the quote does change which rows match. -/
theorem search_misses_literal_quote :
    substrCI obName.data obName.data = true ∧
    search [⟨"id1", obName, none, "w", none⟩] obName = [] := by
  constructor
  · decide
  · decide

end Gdv
